import Mathlib

/-!
A shallow embedding of the `mkbsc` Python package (multi-player
knowledge-based subset construction) together with proofs about the
claims of its specification.

Conventions of the embedding:
* Python `State` objects of the base game are coded by an arbitrary type
  `S` with decidable equality (`Nat` in the concrete examples).  In the
  package all knowledge sets share the very same base `State` objects, so
  Python's identity-based set operations coincide with structural ones.
* Python `frozenset`s of states are `Finset S`.
* A joint action (a Python tuple of per-player actions) is a `List A`.
* Python dict/set/deque bookkeeping of the worklist algorithms is
  modelled by lists; `deque.appendleft` + `deque.pop` is a FIFO queue,
  modelled here as tail-enqueue / head-dequeue, which has the same FIFO
  semantics.  Iteration order over Python sets is unspecified there and
  irrelevant here: all proved statements are about membership.
-/

namespace Mkbsc

variable {S A : Type} [DecidableEq S] [DecidableEq A]

/-- `multiplayer_game.MultiplayerGame.__init__`: a game stores its states,
initial state, per-player alphabet, transition list and per-player
partitionings (each partitioning a list of observations, each observation a
list of states, mirroring the `Observation.states` tuples). -/
structure Game (S A : Type) where
  states : List S
  initial : S
  alphabet : List (List A)
  transitions : List (S × List A × S)
  partitionings : List (List (List S))
deriving DecidableEq

/-- `MultiplayerGame.__init__` adds each transition to a
`networkx.MultiDiGraph` with `key=transition.joint_action`: an edge whose
`(start, end, key)` triple is already present only has its attributes
rewritten (the attributes are functions of the key), so re-adding an
existing triple leaves the graph unchanged. -/
def addEdge (es : List (S × List A × S)) (e : S × List A × S) :
    List (S × List A × S) :=
  if e ∈ es then es else es ++ [e]

/-- The edge list of the `networkx` multigraph built from a transition
list, in insertion order (`for transition in transitions: add_edge ...`). -/
def buildGraph (ts : List (S × List A × S)) : List (S × List A × S) :=
  ts.foldl addEdge []

/-- The game's `self.graph`, restricted to its labelled edges (nodes carry
no information relevant to the claims; `remove_unreachable` is `False` on
every code path used here). -/
def Game.graph (G : Game S A) : List (S × List A × S) :=
  buildGraph G.transitions

/-- `MultiplayerGame.post`, acting on an explicit edge list: collect every
neighbor reached from a member of `X` by an edge whose `action` attribute
equals `α`. -/
def postListOn (es : List (S × List A × S)) (α : List A) (X : Finset S) :
    List S :=
  ((es.filter (fun e => decide (e.1 ∈ X) && decide (e.2.1 = α))).map
    (fun e => e.2.2)).dedup

/-- `MultiplayerGame.post` as the `set` it returns. -/
def postOn (es : List (S × List A × S)) (α : List A) (X : Finset S) :
    Finset S :=
  (postListOn es α X).toFinset

/-- `MultiplayerGame.post(action, states)` for an iterable `states`,
with the action already in joint (tuple) form. -/
def Game.post (G : Game S A) (α : List A) (X : Finset S) : Finset S :=
  postOn G.graph α X

/-- `MultiplayerGame.post`, keeping the result as a list so that later
code can iterate over it (Python iterates the returned `set`; the order
of iteration is unspecified there and unused in the proofs). -/
def Game.postList (G : Game S A) (α : List A) (X : Finset S) : List S :=
  postListOn G.graph α X

/-- `MultiplayerGame.post` when `self.player_count == 1` and the caller
passes a scalar action: the code replaces `action` by `(action,)`. -/
def Game.postScalar (G : Game S A) (a : A) (X : Finset S) : Finset S :=
  G.post [a] X


/-- `MultiplayerGame.project(player)`: same state list and initial state,
alphabet `(Σᵢ,)`, partitionings `(Πᵢ,)`, and one projected transition
`(t.start, (t.joint_action[player],), t.end)` per stored transition.
A fresh game is then constructed, which rebuilds the action-keyed graph.
Out-of-range indexing (`getD`) never occurs under the code's
`assert player < self.player_count`. -/
def Game.project [Inhabited A] (G : Game S A) (i : Nat) : Game S A :=
  { states := G.states
    initial := G.initial
    alphabet := [G.alphabet.getD i []]
    transitions := G.transitions.map (fun t => (t.1, [t.2.1.getD i default], t.2.2))
    partitionings := [G.partitionings.getD i []] }

/-- `helper_functions._permute`: every tuple taking one item from each
iterable; yields nothing if some iterable is empty.  (The enumeration
order differs from `_permute`'s odometer order; only membership matters
to the claims.) -/
def listProd {β : Type} : List (List β) → List (List β)
  | [] => [[]]
  | xs :: rest => xs.flatMap (fun x => (listProd rest).map (fun l => x :: l))

/-- `Alphabet.permute`: every joint action of the game. -/
def Game.jointActions (G : Game S A) : List (List A) :=
  listProd G.alphabet

/-- `helper_functions.consistent(states)`: intersect the (single-element)
knowledges of the given transformed single-player states; came out of a
product tuple, so the list is the tuple of per-player knowledge sets. -/
def consistentFn : List (Finset S) → Finset S
  | [] => ∅
  | q :: rest => rest.foldl (fun r x => r ∩ x) q

/-! ## Single-player KBSC (`MultiplayerGame.KBSC`, `player_count == 1` branch) -/

/-- The mutable state of the single-player KBSC worklist: the interning
map `states` (represented by its insertion-ordered key list, the mapped
`State` object being determined by the key), the FIFO `queue`, the
`tested` set and the accumulated transition list. -/
structure KConfig (S A : Type) where
  statesL : List (Finset S)
  queue : List (Finset S)
  tested : List (Finset S)
  trans : List (Finset S × List A × Finset S)

/-- Knowledge successor for one `(action, observation)` pair:
`knowledge = self.post(action, fromstate.knowledges[0]).intersection(obs.states)`. -/
def kSucc (G : Game S A) (q : Finset S) (p : A × List S) : Finset S :=
  G.post [p.1] q ∩ p.2.toFinset

/-- The `(action, observation)` pairs enumerated by the nested
`for action in self.alphabet[0]: for obs in partitioning:` loops. -/
def kbscPairs (G : Game S A) : List (A × List S) :=
  (G.alphabet.headD []).flatMap
    (fun a => (G.partitionings.headD []).map (fun obs => (a, obs)))

/-- Body of the nested loops for one popped `fromstate`: if the knowledge
set is non-empty, intern it (append to the state map and to the queue)
when new, and always append the transition. -/
def kbscFold (G : Game S A) (q : Finset S) :
    List (A × List S) → KConfig S A → KConfig S A
  | [], c => c
  | p :: ps, c =>
    if kSucc G q p = ∅ then kbscFold G q ps c
    else if kSucc G q p ∈ c.statesL then
      kbscFold G q ps { c with trans := c.trans ++ [(q, [p.1], kSucc G q p)] }
    else
      kbscFold G q ps
        { c with statesL := c.statesL ++ [kSucc G q p]
                 queue := c.queue ++ [kSucc G q p]
                 trans := c.trans ++ [(q, [p.1], kSucc G q p)] }

/-- The `while len(queue):` loop, with explicit fuel (the Python loop
terminates because there are finitely many knowledge sets; every claim
proved below either holds for every fuel value or assumes the run
completed, witnessed by an empty final queue). -/
def kbscLoop (G : Game S A) : Nat → KConfig S A → KConfig S A
  | 0, c => c
  | fuel + 1, c =>
    match c.queue with
    | [] => c
    | q :: rest =>
      if q ∈ c.tested then kbscLoop G fuel { c with queue := rest }
      else kbscLoop G fuel
        (kbscFold G q (kbscPairs G) { c with queue := rest, tested := c.tested ++ [q] })

/-- Initial configuration: `initial_state = State(frozenset({self.initial_state}))`,
interned and enqueued. -/
def kbscInit (G : Game S A) : KConfig S A :=
  { statesL := [{G.initial}], queue := [{G.initial}], tested := [], trans := [] }

/-- Run the single-player KBSC worklist. -/
def kbsc1 (G : Game S A) (fuel : Nat) : KConfig S A :=
  kbscLoop G fuel (kbscInit G)

/-- The game returned by the single-player `KBSC` branch: interned states,
initial knowledge `{s₀}`, the same alphabet object, the accumulated
transitions, and the trivial partitioning with one singleton observation
per produced state. (`remove_unreachable=True` only deletes graph nodes,
and every interned state is reachable, so the edge structure is built
from `transitions` exactly as in any other game.) -/
def kbsc1Game (G : Game S A) (fuel : Nat) : Game (Finset S) A :=
  { states := (kbsc1 G fuel).statesL
    initial := {G.initial}
    alphabet := G.alphabet
    transitions := (kbsc1 G fuel).trans
    partitionings := [(kbsc1 G fuel).statesL.map (fun k => [k])] }

/-! ## Synchronous product (`MultiplayerGame._synchronous_product`)

A state of a transformed single-player game `games[i]` is identified with
its single knowledge set (`state.knowledges[0] : Finset S`); the product
state map is keyed by the tuple (`List`) of those knowledge sets, and a
queue entry carries the tuple together with its `consistent(...)` set. -/

/-- The product worklist state. -/
structure PConfig (S A : Type) where
  statesP : List (List (Finset S))
  queue : List (List (Finset S) × Finset S)
  tested : List (List (Finset S))
  trans : List (List (Finset S) × List A × List (Finset S))

/-- The per-player successor candidates for one joint action:
`players_post[i] = games[i].post(joint_action[i], state_tuple[i])`,
then filtered by `not state.knowledges[0].isdisjoint(possible_post)`. -/
def playersPost (pp : Finset S)
    (gqa : List (Game (Finset S) A × Finset S × A)) :
    List (List (Finset S)) :=
  gqa.map (fun t =>
    ((t.1.postList [t.2.2] {t.2.1}).filter
      (fun p => decide (p ∩ pp ≠ ∅))))

/-- Handling of one candidate successor tuple `possible_knowledge`:
if its knowledge tuple is new, it is interned and enqueued only when
`consistent(...)` is non-empty (otherwise the candidate is dropped);
in every surviving case the transition is appended. -/
def prodHandle (Q : List (Finset S)) (α : List A) (Qn : List (Finset S))
    (c : PConfig S A) : PConfig S A :=
  if Qn ∈ c.statesP then { c with trans := c.trans ++ [(Q, α, Qn)] }
  else if consistentFn Qn = ∅ then c
  else
    { c with statesP := c.statesP ++ [Qn]
             queue := c.queue ++ [(Qn, consistentFn Qn)]
             trans := c.trans ++ [(Q, α, Qn)] }

/-- Body of the `for joint_action in self.alphabet.permute():` loop for
one popped `(state_tuple, possible)` pair. -/
def prodStep (base : Game S A) (gs : List (Game (Finset S) A))
    (Qp : List (Finset S) × Finset S) (c : PConfig S A) : PConfig S A :=
  base.jointActions.foldl
    (fun acc α =>
      (listProd (playersPost (base.post α Qp.2) (gs.zip (Qp.1.zip α)))).foldl
        (fun acc2 Qn => prodHandle Qp.1 α Qn acc2) acc) c

/-- The product `while len(queue):` loop with explicit fuel. -/
def prodLoop (base : Game S A) (gs : List (Game (Finset S) A)) :
    Nat → PConfig S A → PConfig S A
  | 0, c => c
  | fuel + 1, c =>
    match c.queue with
    | [] => c
    | Qp :: rest =>
      if Qp.1 ∈ c.tested then prodLoop base gs fuel { c with queue := rest }
      else prodLoop base gs fuel
        (prodStep base gs Qp { c with queue := rest, tested := c.tested ++ [Qp.1] })

/-- Initial product configuration: the tuple of the transformed games'
initial states is interned unconditionally and enqueued with its
`consistent(...)` set. -/
def prodInit (gs : List (Game (Finset S) A)) : PConfig S A :=
  let Q0 := gs.map (fun g => g.initial)
  { statesP := [Q0], queue := [(Q0, consistentFn Q0)], tested := [], trans := [] }

/-- Run the synchronous product worklist. -/
def syncProduct (base : Game S A) (gs : List (Game (Finset S) A))
    (fuel : Nat) : PConfig S A :=
  prodLoop base gs fuel (prodInit gs)

/-- `MultiplayerGame.KBSC` in the multi-player case:
`games = [self.project(player).KBSC() for player in range(self.player_count)]`
followed by `self._synchronous_product(games)`. -/
def mkbsc [Inhabited A] (G : Game S A) (fuel : Nat) : PConfig S A :=
  syncProduct G
    ((List.range G.alphabet.length).map (fun i => kbsc1Game (G.project i) fuel))
    fuel

/-! ## Fixpoint driver (`helper_functions.iterate_until_isomorphic`) -/

/-- The driver's return value: the log of `(iteration, node count,
iso flag)` entries recorded by the local function `p` (with the verbose
string formatting abstracted to the data it renders), the final game,
and `last_iso` (0 = not stable, 1 = isomorphic, 2 = isomorphic with
equivalent observations). -/
structure IterResult (γ : Type) where
  log : List (Nat × Nat × Nat)
  final : γ
  lastIso : Nat

/-- The `while limit == -1 or i < limit:` loop of
`iterate_until_isomorphic`, generic in the game type exactly as the
Python driver is generic in `G`: `kbscF` is `current.KBSC()`, `sizeF`
is `len(·.states)`, `isoF` is `·.isomorphic(·)` and `isoObsF` is
`·.isomorphic(·, consider_observations=True)`.  The extra `fuel` only
makes the (for `limit = -1` possibly diverging) loop total: `none` means
the Python loop would still be running after `fuel` iterations. -/
def iterLoop {γ : Type} (kbscF : γ → γ) (sizeF : γ → Nat)
    (isoF isoObsF : γ → γ → Bool) (limit : Int) :
    Nat → γ → Nat → Nat → List (Nat × Nat × Nat) → Option (IterResult γ)
  | 0, _, _, _, _ => none
  | fuel + 1, current, i, lastIso, log =>
    if limit = -1 ∨ (i : Int) < limit then
      if sizeF current = sizeF (kbscF current) ∧
         isoF current (kbscF current) = true then
        if isoObsF current (kbscF current) = true then
          some ⟨log ++ [(i + 1, sizeF (kbscF current), 2)], current, 2⟩
        else
          iterLoop kbscF sizeF isoF isoObsF limit fuel (kbscF current)
            (i + 1) 1 (log ++ [(i + 1, sizeF (kbscF current), 1)])
      else
        iterLoop kbscF sizeF isoF isoObsF limit fuel (kbscF current)
          (i + 1) 0 (log ++ [(i + 1, sizeF (kbscF current), 0)])
    else some ⟨log, current, lastIso⟩

/-- `iterate_until_isomorphic(G, limit, ...)`: start from `current = G`,
`i = 0`, `last_iso = 0`, after logging `p(0, len(G.states))`. -/
def iterateUntilIsomorphic {γ : Type} (kbscF : γ → γ) (sizeF : γ → Nat)
    (isoF isoObsF : γ → γ → Bool) (G : γ) (limit : Int) (fuel : Nat) :
    Option (IterResult γ) :=
  iterLoop kbscF sizeF isoF isoObsF limit fuel G 0 0 [(0, sizeF G, 0)]

/-! ## Validation (`Alphabet.__init__`, `Partitioning.valid`,
`MultiplayerGame.__init__` with `validate=True`) -/

/-- The duplicate scan in `Alphabet.__init__`: walk one player's action
list keeping the set `s` of seen actions; `assert action not in s`. -/
def alphabetDupCheck : List A → Finset A → Bool
  | [], _ => true
  | a :: rest, s => if a ∈ s then false else alphabetDupCheck rest (insert a s)

/-- `Alphabet(*actions)`: `none` when some player's action list contains
a duplicate (the assertion fires), otherwise the per-player tuples. -/
def mkAlphabet (ls : List (List A)) : Option (List (List A)) :=
  if ls.all (fun l => alphabetDupCheck l ∅) then some ls else none

/-- Inner loop of `Partitioning.valid`: extend the `collected` set by one
observation, failing if a state has been collected before. -/
def collectObs : List S → Finset S → Option (Finset S)
  | [], coll => some coll
  | st :: rest, coll =>
    if st ∈ coll then none else collectObs rest (insert st coll)

/-- Outer loop of `Partitioning.valid` over the observations. -/
def collectPart : List (List S) → Finset S → Option (Finset S)
  | [], coll => some coll
  | obs :: rest, coll =>
    match collectObs obs coll with
    | none => none
    | some c => collectPart rest c

/-- `Partitioning.valid(states)`: `False` if some state occurs twice,
otherwise `frozenset(collected) == frozenset(states)`. -/
def partitioningValid (p : List (List S)) (sts : List S) : Bool :=
  match collectPart p ∅ with
  | none => false
  | some coll => decide (coll = sts.toFinset)

/-- The per-transition action check of `MultiplayerGame.__init__` under
`validate=True`: each joint-action component must lie in the
corresponding player's alphabet; exhausting the alphabets
(an `IndexError` on `self.alphabet[i]`) also aborts construction. -/
def actionsOk : List A → List (List A) → Bool
  | [], _ => true
  | a :: rest, pl :: pls => decide (a ∈ pl) && actionsOk rest pls
  | _ :: _, [] => false

/-- `MultiplayerGame.__init__(..., validate=True)`, given an already
constructed alphabet: `none` when the unconditional
`assert len(partitionings) == self.player_count`, a
`partitioning.valid(states)` assertion, or a per-transition endpoint or
action assertion fires; otherwise the constructed game. -/
def mkValidatedGame (sts : List S) (init : S) (alph : List (List A))
    (ts : List (S × List A × S)) (parts : List (List (List S))) :
    Option (Game S A) :=
  if parts.length = alph.length ∧
     parts.all (fun p => partitioningValid p sts) ∧
     ts.all (fun t => decide (t.1 ∈ sts) && decide (t.2.2 ∈ sts) &&
       actionsOk t.2.1 alph)
  then some ⟨sts, init, alph, ts, parts⟩ else none

/-! ## Serialisation (`serialization.py`), for base games over integers

The serializer's knowledge-walk loop is guarded by
`type(_pick(states)[0]) is frozenset`, which is false for a base game
(atomic knowledge), so no `Knowledge States:` lines are emitted and the
ids assigned to the base states are `0..len(states)-1` in state-tuple
order (`state_id` runs `-len+1..0` and `id_add = len-1`).  The embedding
covers exactly this domain, with integer atoms and actions; the
quoted-string branches of the parser are modelled as outside the domain
(the embedded parser refuses where the original would take the string
branch), and the `Attributes:` line carries Graphviz layout data only
and is modelled as an opaque consumed line. -/

/-- The character of one decimal digit. -/
def digitChar : Nat → Char
  | 0 => '0'
  | 1 => '1'
  | 2 => '2'
  | 3 => '3'
  | 4 => '4'
  | 5 => '5'
  | 6 => '6'
  | 7 => '7'
  | 8 => '8'
  | _ => '9'

/-- Decimal digits of a positive number, most significant first; the
fuel argument (instantiated with the number itself) only makes the
division recursion structural. -/
def natDigitsAux : Nat → Nat → List Char
  | _, 0 => []
  | 0, _ + 1 => []
  | fuel + 1, n + 1 =>
    natDigitsAux fuel ((n + 1) / 10) ++ [digitChar ((n + 1) % 10)]

/-- `sep.join(parts)` (Python `str.join`). -/
def sepJoin (sep : Char) : List (List Char) → List Char
  | [] => []
  | [l] => l
  | l :: l2 :: ls => l ++ sep :: sepJoin sep (l2 :: ls)

/-- Python `str` of a natural number. -/
def renderNat (n : Nat) : List Char :=
  if n = 0 then ['0'] else natDigitsAux n n

/-- Python `repr`/`str` of an integer. -/
def renderInt (v : Int) : List Char :=
  if v < 0 then '-' :: renderNat v.natAbs else renderNat v.toNat

/-- Python `int(token)` on the nonnegative tokens fed to it here: all
characters must be digits (otherwise `ValueError`, and a leading `-` or
quote never reaches `int` because the callers check `isdigit` first or
fail earlier). -/
def parseNatTok (cs : List Char) : Option Nat :=
  if cs ≠ [] ∧ cs.all (fun c => c.isDigit) then
    some (cs.foldl (fun acc c => 10 * acc + (c.toNat - 48)) 0)
  else none

/-- One alphabet line:
`",".join([repr(action) for action in playeralphabet])`. -/
def alphaLine (pl : List Int) : List Char :=
  sepJoin ',' (pl.map renderInt)

/-- `alphabet_dicts[i][action]`: actions are numbered consecutively
through the players' alphabets (`action_id` keeps running). -/
def actionIdx (alph : List (List Int)) (i : Nat) (a : Int) : Nat :=
  ((alph.take i).map List.length).sum + ((alph.getD i []).indexOf a)

/-- `state_dict[state] + id_add` for a base game: the position of the
state in the state tuple. -/
def stateIdx (sts : List Int) (s : Int) : Nat := sts.indexOf s

/-- One observations line:
`"|".join(",".join(str(state_dict[state] + id_add) for state in
observation) for observation in partitioning)`. -/
def obsLine (sts : List Int) (p : List (List Int)) : List Char :=
  sepJoin '|'
    (p.map (fun obs =>
      sepJoin ',' (obs.map (fun s => renderNat (stateIdx sts s)))))

/-- One transitions line:
`"{0} {1} {2}".format(from_id, ",".join(action ids), to_id)`. -/
def transLine (sts : List Int) (alph : List (List Int))
    (t : Int × List Int × Int) : List Char :=
  sepJoin ' '
    [renderNat (stateIdx sts t.1),
     sepJoin ','
       (t.2.1.enum.map (fun p => renderNat (actionIdx alph p.1 p.2))),
     renderNat (stateIdx sts t.2.2)]

/-- The lines yielded by `_serialize` on a base game. -/
def serializeLines (G : Game Int Int) : List (List Char) :=
  ["Alphabet:".toList] ++ G.alphabet.map alphaLine ++ [[]] ++
  ["Base States:".toList] ++
    G.states.enum.map (fun p => renderNat p.1 ++ '=' :: renderInt p.2) ++
    [[]] ++
  ["Knowledge States:".toList] ++ [[]] ++
  ["Initial State: ".toList ++ renderNat (stateIdx G.states G.initial)] ++
  [[]] ++
  ["Observations:".toList] ++ G.partitionings.map (obsLine G.states) ++
  [[]] ++
  ["Transitions:".toList] ++
    G.transitions.map (transLine G.states G.alphabet) ++ [[]] ++
  ["Attributes: ".toList ++ "\x7b\x7d".toList]

/-- `to_string(game)`: `"\n".join(_serialize(game))`. -/
def toStringChars (G : Game Int Int) : List Char :=
  sepJoin '\n' (serializeLines G)

/-- The characterwise scan of one alphabet line in `_parse` (with fuel,
instantiated to the line length, making the index advance structural):
on a digit, read up to the next comma and `int` it; a quote would start
the string branch, which is outside the modelled integer domain, and
any other character (in particular `-`) raises `TypeError`. -/
def scanActions : Nat → List Char → Option (List Int)
  | _, [] => some []
  | 0, _ :: _ => none
  | fuel + 1, c :: rest =>
    if c.isDigit then
      match parseNatTok ((c :: rest).takeWhile (fun ch => ch ≠ ',')) with
      | none => none
      | some v =>
        match (c :: rest).dropWhile (fun ch => ch ≠ ',') with
        | [] => some [(v : Int)]
        | _ :: rem2 => (scanActions fuel rem2).map (fun vs => (v : Int) :: vs)
    else none

/-- Read lines until the blank section terminator (`while line != "" and
not line.isspace():`); reaching the end of input means a later
`__next__()` raises `StopIteration`, surfaced as a failure. -/
def takeSection : List (List Char) → Option (List (List Char) × List (List Char))
  | [] => none
  | l :: rest =>
    if l = [] then some ([], rest)
    else
      match takeSection rest with
      | none => none
      | some (sec, rem) => some (l :: sec, rem)

/-- One `Base States:` line: `id=value`, with the value branching on its
first character (`'`/`"` starts the string branch, outside the modelled
domain; a digit is `int`ed; anything else — e.g. `-` — raises
`TypeError`). -/
def parseBaseLine (cs : List Char) : Option (Nat × Int) :=
  if '=' ∈ cs then
    match parseNatTok (cs.takeWhile (fun c => c ≠ '=')) with
    | none => none
    | some i =>
      match (cs.dropWhile (fun c => c ≠ '=')).tail with
      | [] => none
      | c :: restv =>
        if c.isDigit then
          (parseNatTok (c :: restv)).map (fun v => (i, (v : Int)))
        else none
  else none

/-- `state_dict[id]` (`KeyError` is a parse failure). -/
def lookupState (sdict : List (Nat × Int)) (k : Nat) : Option Int :=
  (sdict.find? (fun p => decide (p.1 = k))).map (fun p => p.2)

/-- Find the first `": "` in a line and return what follows
(`line.index(": ") + 2`). -/
def afterColonSpace : List Char → Option (List Char)
  | [] => none
  | [_] => none
  | ':' :: ' ' :: rest => some rest
  | _ :: rest => afterColonSpace rest

/-- One `Observations:` line: split on `|` into observations, each a
comma-separated list of state ids. -/
def parseObsLine (sdict : List (Nat × Int)) (cs : List Char) :
    Option (List (List Int)) :=
  (cs.splitOn '|').mapM (fun obs =>
    (obs.splitOn ',').mapM (fun tok =>
      match parseNatTok tok with
      | none => none
      | some k => lookupState sdict k))

/-- One `Transitions:` line: exactly three space-separated fields
(otherwise the tuple unpacking raises), the middle one a comma-separated
list of action ids resolved through `alphabet_dict`. -/
def parseTransLine (sdict : List (Nat × Int)) (flat : List Int)
    (cs : List Char) : Option (Int × List Int × Int) :=
  match cs.splitOn ' ' with
  | [f, acts, tt] =>
    match parseNatTok f, parseNatTok tt with
    | some kf, some kt =>
      match lookupState sdict kf, lookupState sdict kt with
      | some sf, some st2 =>
        ((acts.splitOn ',').mapM (fun tok =>
          match parseNatTok tok with
          | none => none
          | some k => flat.get? k)).map (fun la => (sf, la, st2))
      | _, _ => none
    | _, _ => none
  | _ => none

/-- `_parse(iterable)` on the line level: headers are consumed without
inspecting their contents, exactly as in the original; a non-empty
`Knowledge States:` section is outside the modelled base-game domain;
the final `Attributes:` line must be present and is otherwise ignored;
and the result is constructed through
`MultiplayerGame._create_from_serialized(..., validate=True)`, i.e. the
`Alphabet` duplicate check followed by validated game construction. -/
def parseLines (lines : List (List Char)) : Option (Game Int Int) :=
  match lines with
  | [] => none
  | _ :: rest =>
    match takeSection rest with
    | none => none
    | some (alines, rest1) =>
      match alines.mapM (fun l => scanActions l.length l) with
      | none => none
      | some alph =>
        match rest1 with
        | [] => none
        | _ :: rest2 =>
          match takeSection rest2 with
          | none => none
          | some (blines, rest3) =>
            match blines.mapM parseBaseLine with
            | none => none
            | some sdict =>
              match rest3 with
              | [] => none
              | _ :: rest4 =>
                match takeSection rest4 with
                | none => none
                | some (klines, rest5) =>
                  if klines = [] then
                    match rest5 with
                    | [] => none
                    | iline :: rest6 =>
                      match afterColonSpace iline with
                      | none => none
                      | some itok =>
                        match parseNatTok itok with
                        | none => none
                        | some ik =>
                          match lookupState sdict ik with
                          | none => none
                          | some init =>
                            match rest6 with
                            | _ :: _ :: rest7 =>
                              match takeSection rest7 with
                              | none => none
                              | some (olines, rest8) =>
                                match olines.mapM (parseObsLine sdict) with
                                | none => none
                                | some groupings =>
                                  match rest8 with
                                  | [] => none
                                  | _ :: rest9 =>
                                    match takeSection rest9 with
                                    | none => none
                                    | some (tlines, rest10) =>
                                      match tlines.mapM
                                        (parseTransLine sdict alph.flatten) with
                                      | none => none
                                      | some ts =>
                                        match rest10 with
                                        | [] => none
                                        | _ :: _ =>
                                          match mkAlphabet alph with
                                          | none => none
                                          | some alph2 =>
                                            mkValidatedGame
                                              (sdict.map (fun p => p.2))
                                              init alph2 ts groupings
                            | _ => none
                  else none

/-- `from_string(string)`: `_parse(string.split('\n'))`. -/
def fromStringChars (cs : List Char) : Option (Game Int Int) :=
  parseLines (cs.splitOn '\n')

/-- The per-player observation equivalence of a game: two states lie in
a common observation of player `i`. -/
def SameObs (G : Game S A) (i : Nat) (s t : S) : Prop :=
  ∃ o ∈ G.partitionings.getD i [], s ∈ o ∧ t ∈ o

/-- Modelled from the spec: `isomorphic(G, G',
consider_observations=True)` delegates to `networkx.is_isomorphic`, an
external collaborator not part of this repository; per the contract of
spec section 4.6 it holds iff a bijection between the state sets maps
initial state to initial state, preserves the labelled multi-edge
structure in both directions, and preserves every player's observation
equivalence. -/
def IsoWithObs (G H : Game S A) : Prop :=
  ∃ f : S → S,
    (∀ s ∈ G.states, f s ∈ H.states) ∧
    (∀ s ∈ G.states, ∀ t ∈ G.states, f s = f t → s = t) ∧
    (∀ t ∈ H.states, ∃ s ∈ G.states, f s = t) ∧
    f G.initial = H.initial ∧
    (∀ s a t, (s, a, t) ∈ G.graph ↔ (f s, a, f t) ∈ H.graph) ∧
    (∀ i : Nat, ∀ s ∈ G.states, ∀ t ∈ G.states,
      (SameObs G i s t ↔ SameObs H i (f s) (f t)))

/-- A validated game with a negative action: serialisable, but
`from_string` cannot read back the emitted `-1`. -/
def negGame : Game Int Int :=
  { states := [0]
    initial := 0
    alphabet := [[-1]]
    transitions := [(0, [-1], 0)]
    partitionings := [[[0]]] }

/-- A small two-player base game over nonnegative integers, inside the
serialisation round-trip domain. -/
def tinyGame : Game Int Int :=
  { states := [0, 1]
    initial := 0
    alphabet := [[0, 1], [2]]
    transitions := [(0, [0, 2], 1), (1, [1, 2], 0), (0, [1, 2], 0)]
    partitionings := [[[0, 1]], [[0], [1]]] }

/-! ## Knowledge values and `State.consistent_base` (`state.py`) -/

/-- A knowledge value: a base atom, or one knowledge set per player
(the `State.knowledges` tuple).  Knowledge sets are lists whose
operations are membership-based, mirroring Python's sets of interned
state objects. -/
inductive KVal : Type
  | atom : Nat → KVal
  | info : List (List KVal) → KVal

mutual
/-- Structural equality of knowledge values (Python's `frozenset` / tuple
equality over interned values coincides with it). -/
def KVal.beq : KVal → KVal → Bool
  | .atom x, .atom y => x == y
  | .info ks, .info ms => beqSets ks ms
  | _, _ => false

/-- Structural equality of knowledge-set tuples. -/
def beqSets : List (List KVal) → List (List KVal) → Bool
  | [], [] => true
  | k :: ks, m :: ms => beqSet k m && beqSets ks ms
  | _, _ => false

/-- Structural equality of knowledge sets. -/
def beqSet : List KVal → List KVal → Bool
  | [], [] => true
  | x :: xs, y :: ys => KVal.beq x y && beqSet xs ys
  | _, _ => false
end

mutual
theorem KVal.beq_iff : ∀ a b : KVal, KVal.beq a b = true ↔ a = b
  | .atom x, .atom y => by simp [KVal.beq]
  | .atom _, .info _ => by simp [KVal.beq]
  | .info _, .atom _ => by simp [KVal.beq]
  | .info ks, .info ms => by
    rw [KVal.beq, beqSets_iff ks ms]
    simp

theorem beqSets_iff : ∀ ks ms : List (List KVal),
    beqSets ks ms = true ↔ ks = ms
  | [], [] => by simp [beqSets]
  | [], _ :: _ => by simp [beqSets]
  | _ :: _, [] => by simp [beqSets]
  | k :: ks, m :: ms => by
    rw [beqSets, Bool.and_eq_true, beqSet_iff k m, beqSets_iff ks ms]
    simp

theorem beqSet_iff : ∀ xs ys : List KVal, beqSet xs ys = true ↔ xs = ys
  | [], [] => by simp [beqSet]
  | [], _ :: _ => by simp [beqSet]
  | _ :: _, [] => by simp [beqSet]
  | x :: xs, y :: ys => by
    rw [beqSet, Bool.and_eq_true, KVal.beq_iff x y, beqSet_iff xs ys]
    simp
end

instance : DecidableEq KVal := fun a b =>
  decidable_of_iff (KVal.beq a b = true) (KVal.beq_iff a b)

/-- `len(state.knowledges)` (an atom's knowledge tuple is the singleton
`(a,)`). -/
def KVal.klen : KVal → Nat
  | .atom _ => 1
  | .info ks => ks.length

/-- `set(state[player])`: `State.__getitem__` returns `knowledges[0]`
whenever the tuple is    a singleton and `knowledges[index]` otherwise;
converting an atom to a `set` raises `TypeError` (`none`), as does an
out-of-range index (`IndexError`). -/
def KVal.getSet : KVal → Nat → Option (List KVal)
  | .atom _, _ => none
  | .info ks, i => if ks.length = 1 then ks.head? else ks.get? i

/-- Left fold of list intersections (`set.intersection` chains). -/
def foldInter (l : List KVal) (ms : List (List KVal)) : List KVal :=
  ms.foldl (fun acc m => acc.filter (fun x => decide (x ∈ m))) l

/-- `set.intersection(*args)`: with no argument Python raises
`TypeError` (`none`). -/
def interFam : List (List KVal) → Option (List KVal)
  | [] => none
  | l :: ls => some (foldInter l ls)

/-- Intersection of a family, with the empty family mapped to the empty
set — used only on the specification side. -/
def interD : List (List KVal) → List KVal
  | [] => []
  | l :: ls => foldInter l ls

/-- One iteration of the `while` body of `consistent_base`:
`states = set.intersection(*[set.intersection(*[set(state[player]) for
player in range(len(self.knowledges))]) for state in states])`, with `n`
the player count of the outer `self`. -/
def cbStep (n : Nat) (X : List KVal) : Option (List KVal) :=
  match X.mapM (fun u => (List.range n).mapM (fun i => u.getSet i) >>= interFam) with
  | none => none
  | some inner => interFam inner

/-- The `while len(_pick(states).knowledges) > 1:` loop.  `_pick` raises
`ValueError` on an empty set (`none`); on the uniform-depth values the
code runs on, every element has the same knowledge length, so inspecting
the head models the arbitrary pick. -/
def cbLoop (n : Nat) : Nat → List KVal → Option (List KVal)
  | 0, [] => none
  | 0, _ :: _ => none
  | _ + 1, [] => none
  | fuel + 1, u :: rest =>
    if u.klen > 1 then
      match cbStep n (u :: rest) with
      | none => none
      | some Y => cbLoop n fuel Y
    else some (u :: rest)

/-- `State.consistent_base`.  For a state with a singleton knowledge
tuple holding a frozenset, the code sets
`states = {self.knowledges[0]}` — the set containing the frozenset
itself — and the loop condition then reads `.knowledges` off that
frozenset, raising `AttributeError` (`none`).  Otherwise the loop runs
on `{self}` with `n = len(self.knowledges)`. -/
def consistentBase (s : KVal) (fuel : Nat) : Option (List KVal) :=
  match s with
  | .atom a => cbLoop 1 fuel [.atom a]
  | .info ks => if ks.length = 1 then none else cbLoop ks.length fuel [.info ks]

mutual
/-- Modelled from the spec: `base(Atom a) = {a}` and
`base(Info(S₀,…,S_{n-1})) = ⋂ᵢ ⋃_{s'∈Sᵢ} base(s')` — the recursive
definition the claim states, used as the reference value that
`consistent_base` is compared against. -/
def specBase : KVal → List KVal
  | .atom a => [.atom a]
  | .info ks => interD (specSets ks)

/-- The per-player union sets `⋃_{s'∈Sᵢ} base(s')`. -/
def specSets : List (List KVal) → List (List KVal)
  | [] => []
  | l :: ls => specUnion l :: specSets ls

/-- `⋃_{s'∈S} base(s')` for one player's knowledge set. -/
def specUnion : List KVal → List KVal
  | [] => []
  | v :: vs => specBase v ++ specUnion vs
end

/-- The depth-two knowledge state of the C2 counterexample:
`Info({u₁,u₂},{u₁,u₂})` with `u₁ = Info({a},{a})`, `u₂ = Info({b},{b})`
over the atoms `a = 0`, `b = 1`. -/
def c2state : KVal :=
  .info [[.info [[.atom 0], [.atom 0]], .info [[.atom 1], [.atom 1]]],
         [.info [[.atom 0], [.atom 0]], .info [[.atom 1], [.atom 1]]]]

/-- The transition shape produced by the single-player KBSC for a source
knowledge set `t.1`: some action of the (single) alphabet and some
observation of the (single) partitioning yield `t.2.2` as the non-empty
intersection of the post image with the observation. -/
def charT (G : Game S A) (t : Finset S × List A × Finset S) : Prop :=
  ∃ a ∈ G.alphabet.headD [], ∃ o ∈ G.partitionings.headD [],
    t.2.1 = [a] ∧ t.2.2 = G.post [a] t.1 ∩ o.toFinset ∧
    G.post [a] t.1 ∩ o.toFinset ≠ ∅

/-- The worklist invariant of the single-player KBSC: queue and tested
sets only hold interned states, every interned state is tested or still
queued, interned states are non-empty subsets of the input game's
states, and the accumulated transitions are exactly the characteristic
successors of the already tested states. -/
def KInv (G : Game S A) (c : KConfig S A) : Prop :=
  (∀ q ∈ c.queue, q ∈ c.statesL) ∧
  (∀ q ∈ c.tested, q ∈ c.statesL) ∧
  (∀ q ∈ c.statesL, q ∈ c.tested ∨ q ∈ c.queue) ∧
  (∀ q ∈ c.statesL, q.Nonempty ∧ ∀ s ∈ q, s ∈ G.states) ∧
  (∀ t, t ∈ c.trans ↔ t.1 ∈ c.tested ∧ charT G t)

/-! ## Concrete games from the repository's test data -/

/-- `tests.data.wagon_projected_0`: the wagon game projected onto
player 0 (actions `wait, push` coded `0, 1`), used as the witness input
of the single-player KBSC claim. -/
def wagonP0 : Game Nat Nat :=
  { states := [0, 1, 2]
    initial := 0
    alphabet := [[0, 1]]
    transitions := [(0, [0], 0), (0, [0], 1), (0, [1], 0), (0, [1], 2),
      (1, [0], 1), (1, [0], 2), (1, [1], 1), (1, [1], 0),
      (2, [0], 2), (2, [0], 0), (2, [1], 2), (2, [1], 1)]
    partitionings := [[[0, 1], [2]]] }

/-- `tests.data.magiian22`: base states `0,1,2` (coded as themselves),
initial state `1`, a single action per player (the action `"a"` coded as
`0`), the six listed transitions, and the observation partitionings
`[[0,1],[2]]` for player 0 and `[[0,2],[1]]` for player 1. -/
def magiian22 : Game Nat Nat :=
  { states := [0, 1, 2]
    initial := 1
    alphabet := [[0], [0]]
    transitions := [(0, [0, 0], 1), (0, [0, 0], 2), (1, [0, 0], 0),
      (1, [0, 0], 2), (2, [0, 0], 0), (2, [0, 0], 1)]
    partitionings := [[[0, 1], [2]], [[0, 2], [1]]] }

/-- A two-player game whose two transitions differ only in player 1's
action component (actions coded: player 0 has `5`, player 1 has `6, 7`),
so both base transitions project onto player 0 as the same triple
`(0, (5,), 1)`. -/
def dupGame : Game Nat Nat :=
  { states := [0, 1]
    initial := 0
    alphabet := [[5], [6, 7]]
    transitions := [(0, [5, 6], 1), (0, [5, 7], 1)]
    partitionings := [[[0, 1]], [[0, 1]]] }

/-! # Theorems -/

theorem mem_listProd {β : Type} :
    ∀ {ls : List (List β)} {c : List β},
      c ∈ listProd ls ↔ c.length = ls.length ∧
        ∀ p ∈ c.zip ls, p.1 ∈ p.2 := by
  intro ls
  induction ls with
  | nil =>
    intro c
    constructor
    · rintro h
      simp only [listProd, List.mem_singleton] at h
      subst h
      simp
    · rintro ⟨hl, _⟩
      simp only [List.length_nil, List.length_eq_zero] at hl
      subst hl
      simp [listProd]
  | cons xs rest ih =>
    intro c
    simp only [listProd, List.mem_flatMap, List.mem_map]
    constructor
    · rintro ⟨x, hx, l, hl, rfl⟩
      rcases ih.mp hl with ⟨hlen, hmem⟩
      refine ⟨by simp [hlen], ?_⟩
      rintro p hp
      rcases List.mem_cons.mp (by simpa [List.zip_cons_cons] using hp) with h | h
      · subst h
        exact hx
      · exact hmem p h
    · rintro ⟨hlen, hmem⟩
      cases c with
      | nil => simp at hlen
      | cons y ys =>
        refine ⟨y, hmem (y, xs) (by simp [List.zip_cons_cons]), ys, ih.mpr ⟨by simpa using hlen, ?_⟩, rfl⟩
        intro p hp
        exact hmem p (by simp [List.zip_cons_cons, hp])

section GraphLemmas

theorem mem_addEdge {es : List (S × List A × S)} {e x : S × List A × S} :
    x ∈ addEdge es e ↔ x ∈ es ∨ x = e := by
  unfold addEdge
  split
  · next h =>
    constructor
    · exact fun hx => Or.inl hx
    · rintro (hx | rfl)
      · exact hx
      · exact h
  · simp [or_comm]

theorem nodup_addEdge {es : List (S × List A × S)} {e : S × List A × S}
    (h : es.Nodup) : (addEdge es e).Nodup := by
  unfold addEdge
  split
  · exact h
  · next hne => simpa [List.nodup_append] using ⟨h, hne⟩

theorem mem_foldl_addEdge {ts : List (S × List A × S)} :
    ∀ {es : List (S × List A × S)} {x}, x ∈ ts.foldl addEdge es ↔ x ∈ es ∨ x ∈ ts := by
  induction ts with
  | nil => simp
  | cons t ts ih =>
    intro es x
    rw [List.foldl_cons, ih, mem_addEdge]
    simp only [List.mem_cons]
    tauto

theorem mem_buildGraph {ts : List (S × List A × S)} {x} :
    x ∈ buildGraph ts ↔ x ∈ ts := by
  unfold buildGraph
  rw [mem_foldl_addEdge]
  simp

theorem nodup_foldl_addEdge {ts : List (S × List A × S)} :
    ∀ {es : List (S × List A × S)}, es.Nodup → (ts.foldl addEdge es).Nodup := by
  induction ts with
  | nil => exact fun h => h
  | cons t ts ih => exact fun h => ih (nodup_addEdge h)

theorem nodup_buildGraph {ts : List (S × List A × S)} :
    (buildGraph ts).Nodup :=
  nodup_foldl_addEdge List.nodup_nil

theorem mem_postListOn {es : List (S × List A × S)} {α : List A} {X : Finset S}
    {t : S} : t ∈ postListOn es α X ↔ ∃ s ∈ X, (s, α, t) ∈ es := by
  unfold postListOn
  simp only [List.mem_dedup, List.mem_map, List.mem_filter,
    Bool.and_eq_true, decide_eq_true_eq]
  constructor
  · rintro ⟨⟨s, a, u⟩, ⟨he, hs, ha⟩, rfl⟩
    subst ha
    exact ⟨s, hs, he⟩
  · rintro ⟨s, hs, he⟩
    exact ⟨(s, α, t), ⟨he, hs, rfl⟩, rfl⟩

theorem mem_postOn {es : List (S × List A × S)} {α : List A} {X : Finset S}
    {t : S} : t ∈ postOn es α X ↔ ∃ s ∈ X, (s, α, t) ∈ es := by
  unfold postOn
  rw [List.mem_toFinset, mem_postListOn]

/-- Membership characterisation of `post` in terms of the game's stored
transition list (the multigraph contains a triple iff the list does). -/
theorem mem_post {G : Game S A} {α : List A} {X : Finset S} {t : S} :
    t ∈ G.post α X ↔ ∃ s ∈ X, (s, α, t) ∈ G.transitions := by
  unfold Game.post Game.graph
  rw [mem_postOn]
  constructor
  · rintro ⟨s, hs, he⟩
    exact ⟨s, hs, mem_buildGraph.mp he⟩
  · rintro ⟨s, hs, he⟩
    exact ⟨s, hs, mem_buildGraph.mpr he⟩

theorem postOn_congr {es es' : List (S × List A × S)}
    (h : ∀ e, e ∈ es ↔ e ∈ es') (α : List A) (X : Finset S) :
    postOn es α X = postOn es' α X := by
  ext t
  rw [mem_postOn, mem_postOn]
  constructor
  · rintro ⟨s, hs, he⟩
    exact ⟨s, hs, (h _).mp he⟩
  · rintro ⟨s, hs, he⟩
    exact ⟨s, hs, (h _).mpr he⟩

end GraphLemmas

/-! ## Claim C8 -/

/-- Claim C8: `post(G, α, S)` returns exactly
`{s' | ∃ s ∈ S, (s, α, s') ∈ T}`, and for single-player games a scalar
action `a` passed by the caller is treated as the 1-tuple `(a,)`. -/
theorem post_exact (G : Game S A) (α : List A) (a : A) (X : Finset S) :
    (∀ t, t ∈ G.post α X ↔ ∃ s ∈ X, (s, α, t) ∈ G.transitions) ∧
    G.postScalar a X = G.post [a] X :=
  ⟨fun _ => mem_post, rfl⟩

/-! ## Claim C10 -/

/-- Claim C10: the game graph keys its edges by the joint action, so for
every ordered pair of states and every joint action there is at most one
graph edge; consequently a game constructed from a transition list with
exact duplicates has the same graph — with identical post-images — as the
game built from the deduplicated list, even though the stored transition
tuple retains the duplicates. -/
theorem graph_keyed_by_action (sts : List S) (init : S)
    (alph : List (List A)) (parts : List (List (List S)))
    (ts : List (S × List A × S)) :
    (Game.mk sts init alph ts parts).graph.Nodup ∧
    (Game.mk sts init alph ts parts).graph.Perm
      (Game.mk sts init alph ts.dedup parts).graph ∧
    (∀ α X, (Game.mk sts init alph ts parts).post α X =
      (Game.mk sts init alph ts.dedup parts).post α X) ∧
    (Game.mk sts init alph ts parts).transitions = ts := by
  have hmem : ∀ e : S × List A × S,
      e ∈ buildGraph ts ↔ e ∈ buildGraph ts.dedup := by
    intro e
    rw [mem_buildGraph, mem_buildGraph, List.mem_dedup]
  refine ⟨nodup_buildGraph, ?_, ?_, rfl⟩
  · refine List.perm_of_nodup_nodup_toFinset_eq nodup_buildGraph nodup_buildGraph ?_
    ext e
    rw [List.mem_toFinset, List.mem_toFinset]
    exact hmem e
  · intro α X
    exact postOn_congr hmem α X

/-! ## Claim C3 -/

/-- Claim C3 (counterexample): the claim asserts that duplicate projected
transitions are retained as parallel multi-edges of the projected game's
multigraph.  On `dupGame`, projecting onto player 0 produces the triple
`(0, (5,), 1)` twice; the stored transition list retains both copies, but
the action-keyed graph holds a single edge, so the multigraph is
deduplicated, contrary to the claim. -/
theorem project_duplicates_collapse_in_graph :
    ((dupGame.project 0).transitions.count (0, [5], 1) = 2) ∧
    ((dupGame.project 0).graph.count (0, [5], 1) = 1) ∧
    ¬ ((dupGame.project 0).graph.count (0, [5], 1) =
       (dupGame.project 0).transitions.count (0, [5], 1)) := by
  decide

/-- Claim C3 (amended): `project(G, i)` yields a game with the same state
list and initial state, alphabet `(Σᵢ,)`, partitionings `(Πᵢ,)` and
transition list `{(s, (αᵢ,), s') | (s, α, s') ∈ T}` with duplicates
retained in the stored transition tuple; the game's action-keyed
multigraph, however, collapses duplicate projected transitions, holding
each `(s, (αᵢ,), s')` triple at most once. -/
theorem project_spec [Inhabited A] (G : Game S A) (i : Nat)
    (hi : i < G.alphabet.length) :
    (G.project i).states = G.states ∧
    (G.project i).initial = G.initial ∧
    (G.project i).alphabet = [G.alphabet.getD i []] ∧
    (G.project i).partitionings = [G.partitionings.getD i []] ∧
    (G.project i).transitions =
      G.transitions.map (fun t => (t.1, [t.2.1.getD i default], t.2.2)) ∧
    (∀ e, e ∈ (G.project i).graph ↔ e ∈ (G.project i).transitions) ∧
    (G.project i).graph.Nodup := by
  refine ⟨rfl, rfl, rfl, rfl, rfl, ?_, ?_⟩
  · intro e
    exact mem_buildGraph
  · exact nodup_buildGraph

/-- Witness for the amended claim C3, at `dupGame` and player 0. -/
theorem project_spec_witness :
    0 < dupGame.alphabet.length ∧
    ((dupGame.project 0).states = dupGame.states ∧
     (dupGame.project 0).initial = dupGame.initial ∧
     (dupGame.project 0).alphabet = [dupGame.alphabet.getD 0 []] ∧
     (dupGame.project 0).partitionings = [dupGame.partitionings.getD 0 []] ∧
     (dupGame.project 0).transitions =
       dupGame.transitions.map (fun t => (t.1, [t.2.1.getD 0 default], t.2.2)) ∧
     (∀ e, e ∈ (dupGame.project 0).graph ↔ e ∈ (dupGame.project 0).transitions) ∧
     (dupGame.project 0).graph.Nodup) :=
  ⟨by decide, project_spec dupGame 0 (by decide)⟩

/-! ## Claim C5 -/

theorem foldl_preserve {β γ : Type} {P : γ → Prop} {f : γ → β → γ}
    (hf : ∀ c x, P c → P (f c x)) :
    ∀ {l : List β} {c : γ}, P c → P (l.foldl f c) := by
  intro l
  induction l with
  | nil => exact fun h => h
  | cons x xs ih => exact fun h => ih (hf _ _ h)

theorem foldl_inter_const {v : Finset S} :
    ∀ {rest : List (Finset S)}, (∀ x ∈ rest, x = v) →
      rest.foldl (fun r x => r ∩ x) v = v := by
  intro rest
  induction rest with
  | nil => intro _; rfl
  | cons x xs ih =>
    intro h
    have hx : x = v := h x (List.mem_cons_self x xs)
    subst hx
    rw [List.foldl_cons, Finset.inter_self]
    exact ih (fun y hy => h y (List.mem_cons_of_mem _ hy))

theorem consistentFn_const {v : Finset S} :
    ∀ {l : List (Finset S)}, (∀ x ∈ l, x = v) → l ≠ [] →
      consistentFn l = v := by
  intro l hall hne
  cases l with
  | nil => exact absurd rfl hne
  | cons q rest =>
    have hq : q = v := hall q (List.mem_cons_self q rest)
    subst hq
    exact foldl_inter_const (fun y hy => hall y (List.mem_cons_of_mem _ hy))

/-- All interned product states have a non-empty component intersection. -/
def PConsInv (c : PConfig S A) : Prop :=
  ∀ Q ∈ c.statesP, (consistentFn Q).Nonempty

theorem prodHandle_preserves_cons {Q : List (Finset S)} {α : List A}
    {Qn : List (Finset S)} {c : PConfig S A} (h : PConsInv c) :
    PConsInv (prodHandle Q α Qn c) := by
  unfold prodHandle PConsInv
  split
  · exact h
  · split
    · exact h
    · next hne =>
      intro R hR
      simp only [List.mem_append, List.mem_singleton] at hR
      rcases hR with hold | hnew
      · exact h R hold
      · subst hnew
        exact Finset.nonempty_iff_ne_empty.mpr hne

theorem prodStep_preserves_cons {base : Game S A}
    {gs : List (Game (Finset S) A)} {Qp : List (Finset S) × Finset S}
    {c : PConfig S A} (h : PConsInv c) :
    PConsInv (prodStep base gs Qp c) := by
  unfold prodStep
  refine foldl_preserve ?_ h
  intro acc α hacc
  refine foldl_preserve ?_ hacc
  intro acc2 Qn h2
  exact prodHandle_preserves_cons h2

theorem prodLoop_preserves_cons {base : Game S A}
    {gs : List (Game (Finset S) A)} :
    ∀ {fuel : Nat} {c : PConfig S A}, PConsInv c →
      PConsInv (prodLoop base gs fuel c) := by
  intro fuel
  induction fuel with
  | zero => exact fun h => h
  | succ n ih =>
    intro c h
    cases hq : c.queue with
    | nil =>
      simp only [prodLoop, hq]
      exact h
    | cons Qp rest =>
      simp only [prodLoop, hq]
      split
      · exact ih h
      · exact ih (prodStep_preserves_cons h)

/-- All interned single-player knowledge states are non-empty. -/
def KNonemptyInv (c : KConfig S A) : Prop :=
  ∀ k ∈ c.statesL, k.Nonempty

theorem kbscFold_preserves_nonempty {G : Game S A} {q : Finset S} :
    ∀ {ps : List (A × List S)} {c : KConfig S A}, KNonemptyInv c →
      KNonemptyInv (kbscFold G q ps c) := by
  intro ps
  induction ps with
  | nil => exact fun h => h
  | cons p ps ih =>
    intro c h
    unfold kbscFold
    split
    · exact ih h
    · next hk =>
      split
      · exact ih h
      · refine ih ?_
        intro x hx
        simp only [List.mem_append, List.mem_singleton] at hx
        rcases hx with hold | hnew
        · exact h x hold
        · subst hnew
          exact Finset.nonempty_iff_ne_empty.mpr hk

theorem kbscLoop_preserves_nonempty {G : Game S A} :
    ∀ {fuel : Nat} {c : KConfig S A}, KNonemptyInv c →
      KNonemptyInv (kbscLoop G fuel c) := by
  intro fuel
  induction fuel with
  | zero => exact fun h => h
  | succ n ih =>
    intro c h
    cases hq : c.queue with
    | nil =>
      simp only [kbscLoop, hq]
      exact h
    | cons q rest =>
      simp only [kbscLoop, hq]
      split
      · exact ih h
      · exact ih (kbscFold_preserves_nonempty h)

/-- Claim C5: every state of a KBSC-produced game has a non-empty
consistent base.  In the synchronous product, a product state is interned
only when the intersection of the players' knowledge sets is non-empty
(the initial product state, interned unconditionally, is the tuple of
per-player initial knowledges `{s₀}`, whose intersection is `{s₀}`); in
the single-player KBSC every interned knowledge state is a non-empty
subset of the projected game's states. -/
theorem kbsc_states_consistent [Inhabited A] (G : Game S A) (fuel : Nat)
    (hn : G.alphabet ≠ []) :
    (∀ Q ∈ (mkbsc G fuel).statesP, (consistentFn Q).Nonempty) ∧
    (∀ i : Nat, ∀ k ∈ (kbsc1 (G.project i) fuel).statesL, k.Nonempty) := by
  constructor
  · unfold mkbsc syncProduct
    refine prodLoop_preserves_cons ?_
    intro Q hQ
    unfold prodInit at hQ
    simp only [List.mem_singleton] at hQ
    subst hQ
    have hconst : ∀ x ∈ (List.range G.alphabet.length).map
        (fun i => kbsc1Game (G.project i) fuel) |>.map (fun g => g.initial),
        x = ({G.initial} : Finset S) := by
      intro x hx
      simp only [List.mem_map, List.mem_range] at hx
      rcases hx with ⟨g, ⟨i, _, rfl⟩, rfl⟩
      rfl
    have hne : ((List.range G.alphabet.length).map
        (fun i => kbsc1Game (G.project i) fuel)).map (fun g => g.initial) ≠ [] := by
      simp only [ne_eq, List.map_eq_nil_iff, List.range_eq_nil]
      intro hlen
      exact hn (List.length_eq_zero.mp hlen)
    rw [consistentFn_const hconst hne]
    exact ⟨G.initial, Finset.mem_singleton_self _⟩
  · intro i k hk
    refine kbscLoop_preserves_nonempty ?_ k hk
    intro x hx
    simp only [kbscInit, List.mem_singleton] at hx
    subst hx
    exact ⟨(G.project i).initial, Finset.mem_singleton_self _⟩

/-- Witness for claim C5 at the `magiian22` game. -/
theorem kbsc_states_consistent_witness :
    magiian22.alphabet ≠ [] ∧
    ((∀ Q ∈ (mkbsc magiian22 8).statesP, (consistentFn Q).Nonempty) ∧
     (∀ i : Nat, ∀ k ∈ (kbsc1 (magiian22.project i) 8).statesL, k.Nonempty)) :=
  ⟨by decide, kbsc_states_consistent magiian22 8 (by decide)⟩

/-! ## Claim C1 -/

/-- Claim C1: the specification requires that the synchronous product emit
a transition `(Q, α, Q')` only if the base game has a witness edge
`(s, α, s')` with `s ∈ possible` and `s' ∈ possible'`.  The code omits the
final witness check (it only filters each player's successors individually
against `possible_post`).  Evaluated on the repository's own `magiian22`
test game this emits the self-loop at the product state
`({0,1}, {0,2})` — whose possible set is `{0}` — although the base game
has no edge `(0, (a,a), 0)`.  The run completes (final queue empty), the
self-loop is among the emitted transitions, and no witness edge exists
for it, so the code contradicts both the claim and the repository's
expected test output `tests.data.magiian22_kbsc`, which omits this
self-loop. -/
theorem product_emits_unwitnessed_transition :
    (mkbsc magiian22 8).queue = [] ∧
    ([{0, 1}, {0, 2}], [0, 0], [({0, 1} : Finset Nat), {0, 2}]) ∈
      (mkbsc magiian22 8).trans ∧
    consistentFn [({0, 1} : Finset Nat), {0, 2}] = {0} ∧
    (∀ s ∈ consistentFn [({0, 1} : Finset Nat), {0, 2}],
      ∀ t ∈ consistentFn [({0, 1} : Finset Nat), {0, 2}],
        (s, [0, 0], t) ∉ magiian22.transitions) := by
  decide

/-! ## Claim C7 -/

theorem iterLoop_stable {γ : Type} (kbscF : γ → γ) (sizeF : γ → Nat)
    (isoF isoObsF : γ → γ → Bool) (limit : Int) :
    ∀ (fuel : Nat) (current : γ) (i lastIso : Nat)
      (log : List (Nat × Nat × Nat)) (r : IterResult γ),
      lastIso ≠ 2 →
      iterLoop kbscF sizeF isoF isoObsF limit fuel current i lastIso log = some r →
      r.lastIso = 2 →
      isoObsF r.final (kbscF r.final) = true := by
  intro fuel
  induction fuel with
  | zero =>
    intro current i lastIso log r _ hr _
    simp [iterLoop] at hr
  | succ n ih =>
    intro current i lastIso log r hl hr h2
    rw [iterLoop] at hr
    split at hr
    · split at hr
      · split at hr
        · next hobs =>
          rw [Option.some.injEq] at hr
          subst hr
          exact hobs
        · exact ih _ _ _ _ _ (by omega) hr h2
      · exact ih _ _ _ _ _ (by omega) hr h2
    · rw [Option.some.injEq] at hr
      subst hr
      exact absurd h2 hl

/-- Claim C7: whenever `iterate_until_isomorphic(G, limit)` returns with
status `STABLE_WITH_OBSERVATIONS` (`last_iso == 2`), applying the KBSC to
the returned final game yields a game that is isomorphic to it with
`consider_observations=True`: the driver only breaks with status 2 after
establishing `current.isomorphic(current.KBSC(), consider_observations=True)`
and returning that same `current`.  The statement is generic in the game
operations, exactly as the Python driver is generic in `G`. -/
theorem iterate_stable_with_observations {γ : Type} (kbscF : γ → γ)
    (sizeF : γ → Nat) (isoF isoObsF : γ → γ → Bool) (G : γ) (limit : Int)
    (fuel : Nat) (r : IterResult γ)
    (hr : iterateUntilIsomorphic kbscF sizeF isoF isoObsF G limit fuel = some r)
    (h2 : r.lastIso = 2) :
    isoObsF r.final (kbscF r.final) = true :=
  iterLoop_stable kbscF sizeF isoF isoObsF limit fuel G 0 0 _ r (by omega) hr h2

/-- Witness for claim C7: a one-object game type on which every check
succeeds; the driver stops immediately with status 2 and the conclusion
evaluates to `true = true`. -/
theorem iterate_stable_with_observations_witness :
    (iterateUntilIsomorphic (fun u : Unit => u) (fun _ => 1)
      (fun _ _ => true) (fun _ _ => true) () (-1) 3 =
        some ⟨[(0, 1, 0), (1, 1, 2)], (), 2⟩) ∧
    (fun (_ _ : Unit) => true) (IterResult.final ⟨[(0, 1, 0), (1, 1, 2)], (), 2⟩)
      ((fun u : Unit => u) (IterResult.final ⟨[(0, 1, 0), (1, 1, 2)], (), 2⟩)) = true :=
  ⟨by rfl,
   iterate_stable_with_observations (fun u : Unit => u) (fun _ => 1)
     (fun _ _ => true) (fun _ _ => true) () (-1) 3
     ⟨[(0, 1, 0), (1, 1, 2)], (), 2⟩ (by rfl) (by rfl)⟩

/-! ## Claim C9 -/

theorem alphabetDupCheck_iff :
    ∀ (l : List A) (s : Finset A),
      alphabetDupCheck l s = true ↔ l.Nodup ∧ ∀ a ∈ l, a ∉ s := by
  intro l
  induction l with
  | nil =>
    intro s
    simp [alphabetDupCheck]
  | cons a rest ih =>
    intro s
    rw [alphabetDupCheck]
    split
    · next ha =>
      simp only [Bool.false_eq_true, false_iff, not_and]
      intro _ hall
      exact hall a (List.mem_cons_self a rest) ha
    · next ha =>
      rw [ih]
      constructor
      · rintro ⟨hnd, hall⟩
        refine ⟨List.nodup_cons.mpr ⟨fun hmem => ?_, hnd⟩, ?_⟩
        · exact hall a hmem (Finset.mem_insert_self a s)
        · intro b hb
          rcases List.mem_cons.mp hb with rfl | hb
          · exact ha
          · intro hbs
            exact hall b hb (Finset.mem_insert_of_mem hbs)
      · rintro ⟨hnd, hall⟩
        rcases List.nodup_cons.mp hnd with ⟨hna, hrest⟩
        refine ⟨hrest, fun b hb hbi => ?_⟩
        rcases Finset.mem_insert.mp hbi with rfl | hbs
        · exact hna hb
        · exact hall b (List.mem_cons_of_mem a hb) hbs

theorem collectObs_some :
    ∀ {obs : List S} {coll : Finset S},
      (collectObs obs coll).isSome ↔ obs.Nodup ∧ ∀ s ∈ obs, s ∉ coll := by
  intro obs
  induction obs with
  | nil =>
    intro coll
    simp [collectObs]
  | cons st rest ih =>
    intro coll
    rw [collectObs]
    split
    · next hst =>
      simp only [Option.isSome_none, Bool.false_eq_true, false_iff, not_and]
      intro _ hall
      exact hall st (List.mem_cons_self st rest) hst
    · next hst =>
      rw [ih]
      constructor
      · rintro ⟨hnd, hall⟩
        refine ⟨List.nodup_cons.mpr ⟨fun hmem => ?_, hnd⟩, ?_⟩
        · exact hall st hmem (Finset.mem_insert_self st coll)
        · intro b hb
          rcases List.mem_cons.mp hb with rfl | hb
          · exact hst
          · intro hbs
            exact hall b hb (Finset.mem_insert_of_mem hbs)
      · rintro ⟨hnd, hall⟩
        rcases List.nodup_cons.mp hnd with ⟨hna, hrest⟩
        refine ⟨hrest, fun b hb hbi => ?_⟩
        rcases Finset.mem_insert.mp hbi with rfl | hbs
        · exact hna hb
        · exact hall b (List.mem_cons_of_mem st hb) hbs

theorem collectObs_val :
    ∀ {obs : List S} {coll c : Finset S},
      collectObs obs coll = some c → c = coll ∪ obs.toFinset := by
  intro obs
  induction obs with
  | nil =>
    intro coll c h
    rw [collectObs, Option.some.injEq] at h
    simp [h.symm]
  | cons st rest ih =>
    intro coll c h
    rw [collectObs] at h
    split at h
    · exact absurd h (by simp)
    · have := ih h
      subst this
      ext x
      simp only [Finset.mem_union, Finset.mem_insert, List.toFinset_cons,
        List.mem_toFinset]
      tauto

theorem collectPart_some :
    ∀ {ps : List (List S)} {coll : Finset S},
      (collectPart ps coll).isSome ↔ ps.flatten.Nodup ∧ ∀ s ∈ ps.flatten, s ∉ coll := by
  intro ps
  induction ps with
  | nil =>
    intro coll
    simp [collectPart]
  | cons obs rest ih =>
    intro coll
    rw [collectPart]
    cases hco : collectObs obs coll with
    | none =>
      simp only [Option.isSome_none, Bool.false_eq_true, false_iff, not_and]
      intro hnd hall
      have hobs : (collectObs obs coll).isSome := by
        rw [collectObs_some]
        have hnd2 := List.nodup_append.mp (by simpa using hnd)
        refine ⟨hnd2.1, fun s hs => hall s (by simp [hs])⟩
      rw [hco] at hobs
      simp at hobs
    | some c =>
      have hc := collectObs_val hco
      have hobs : obs.Nodup ∧ ∀ s ∈ obs, s ∉ coll := by
        have : (collectObs obs coll).isSome := by rw [hco]; rfl
        exact collectObs_some.mp this
      rw [ih]
      subst hc
      constructor
      · rintro ⟨hnd, hall⟩
        rw [List.flatten_cons, List.nodup_append]
        refine ⟨⟨hobs.1, hnd, ?_⟩, ?_⟩
        · intro a ha hb
          exact hall a hb (by simp [ha])
        · intro s hs
          rcases List.mem_append.mp hs with hs2 | hs2
          · exact hobs.2 s hs2
          · intro hcoll
            exact hall s hs2 (by simp [hcoll])
      · rintro ⟨hnd, hall⟩
        rw [List.flatten_cons, List.nodup_append] at hnd
        rcases hnd with ⟨hobsnd, hrestnd, hdisj⟩
        refine ⟨hrestnd, fun s hs hsu => ?_⟩
        rcases Finset.mem_union.mp hsu with hcoll | hobsm
        · exact hall s (List.mem_append.mpr (Or.inr hs)) hcoll
        · exact hdisj (List.mem_toFinset.mp hobsm) hs

theorem collectPart_val :
    ∀ {ps : List (List S)} {coll c : Finset S},
      collectPart ps coll = some c → c = coll ∪ ps.flatten.toFinset := by
  intro ps
  induction ps with
  | nil =>
    intro coll c h
    rw [collectPart, Option.some.injEq] at h
    simp [h.symm]
  | cons obs rest ih =>
    intro coll c h
    rw [collectPart] at h
    cases hco : collectObs obs coll with
    | none =>
      rw [hco] at h
      exact absurd h (by simp)
    | some c0 =>
      rw [hco] at h
      have h0 := collectObs_val hco
      have h1 := ih h
      subst h0
      subst h1
      ext x
      simp only [Finset.mem_union, List.flatten_cons, List.mem_toFinset,
        List.mem_append]
      tauto

theorem actionsOk_iff :
    ∀ (la : List A) (alph : List (List A)),
      actionsOk la alph = true ↔
        la.length ≤ alph.length ∧ ∀ pr ∈ la.zip alph, pr.1 ∈ pr.2 := by
  intro la
  induction la with
  | nil =>
    intro alph
    simp [actionsOk]
  | cons a rest ih =>
    intro alph
    cases alph with
    | nil =>
      simp [actionsOk]
    | cons pl pls =>
      rw [actionsOk, Bool.and_eq_true, decide_eq_true_eq, ih]
      constructor
      · rintro ⟨ha, hle, hall⟩
        refine ⟨by simpa using hle, ?_⟩
        intro pr hpr
        rcases List.mem_cons.mp (by simpa [List.zip_cons_cons] using hpr)
          with h | h
        · subst h
          exact ha
        · exact hall pr h
      · rintro ⟨hle, hall⟩
        refine ⟨hall (a, pl) (by simp [List.zip_cons_cons]), by simpa using hle, ?_⟩
        intro pr hpr
        exact hall pr (by simp [List.zip_cons_cons, hpr])

theorem partitioningValid_iff {p : List (List S)} {sts : List S} :
    partitioningValid p sts = true ↔
      p.flatten.Nodup ∧ p.flatten.toFinset = sts.toFinset := by
  unfold partitioningValid
  cases hcp : collectPart p ∅ with
  | none =>
    simp only [Bool.false_eq_true, false_iff, not_and]
    intro hnd
    have : (collectPart p (∅ : Finset S)).isSome := by
      rw [collectPart_some]
      exact ⟨hnd, by simp⟩
    rw [hcp] at this
    simp at this
  | some coll =>
    have hnd : p.flatten.Nodup :=
      (collectPart_some.mp (by rw [hcp]; rfl)).1
    have hval : coll = p.flatten.toFinset := by
      have := collectPart_val hcp
      simpa using this
    subst hval
    simp [hnd]

/-- Claim C9: validation failures are raised at construction time:
`Alphabet` construction fails exactly when some player's action list has
a duplicate, and validated game construction fails exactly when the
partitioning count differs from the player count, some partitioning is
not a partition of the state set (an observation-wise duplicate-free
cover with the states' exact union), some transition endpoint is outside
the state set, or some joint-action component is missing from the
corresponding player's alphabet; on well-formed input construction
succeeds. -/
theorem validation_at_construction (ls : List (List A)) (sts : List S)
    (init : S) (alph : List (List A)) (ts : List (S × List A × S))
    (parts : List (List (List S))) :
    ((mkAlphabet ls).isSome ↔ ∀ l ∈ ls, l.Nodup) ∧
    ((mkValidatedGame sts init alph ts parts).isSome ↔
      (parts.length = alph.length ∧
       (∀ p ∈ parts, p.flatten.Nodup ∧ p.flatten.toFinset = sts.toFinset) ∧
       (∀ t ∈ ts, t.1 ∈ sts ∧ t.2.2 ∈ sts ∧
         t.2.1.length ≤ alph.length ∧ ∀ pr ∈ t.2.1.zip alph, pr.1 ∈ pr.2))) := by
  constructor
  · unfold mkAlphabet
    split
    · next hall =>
      simp only [Option.isSome_some, true_iff]
      intro l hl
      have := (List.all_eq_true.mp hall) l hl
      exact ((alphabetDupCheck_iff l ∅).mp (by simpa using this)).1
    · next hnall =>
      simp only [Option.isSome_none, Bool.false_eq_true, false_iff, not_forall]
      rw [List.all_eq_true] at hnall
      push_neg at hnall
      rcases hnall with ⟨l, hl, hfail⟩
      refine ⟨l, hl, fun hnd => hfail ?_⟩
      rw [alphabetDupCheck_iff]
      exact ⟨hnd, fun a _ => Finset.not_mem_empty a⟩
  · unfold mkValidatedGame
    split
    · next hcond =>
      simp only [Option.isSome_some, true_iff]
      rcases hcond with ⟨hlen, hparts, hts⟩
      refine ⟨hlen, ?_, ?_⟩
      · intro p hp
        exact partitioningValid_iff.mp ((List.all_eq_true.mp hparts) p hp)
      · intro t ht
        have := (List.all_eq_true.mp hts) t ht
        simp only [Bool.and_eq_true, decide_eq_true_eq] at this
        exact ⟨this.1.1, this.1.2, (actionsOk_iff _ _).mp this.2⟩
    · next hncond =>
      simp only [Option.isSome_none, Bool.false_eq_true, false_iff]
      intro ⟨hlen, hparts, hts⟩
      refine hncond ⟨hlen, ?_, ?_⟩
      · rw [List.all_eq_true]
        intro p hp
        exact partitioningValid_iff.mpr (hparts p hp)
      · rw [List.all_eq_true]
        intro t ht
        rcases hts t ht with ⟨h1, h2, h3, h4⟩
        simp only [Bool.and_eq_true, decide_eq_true_eq]
        exact ⟨⟨h1, h2⟩, (actionsOk_iff _ _).mpr ⟨h3, h4⟩⟩

/-! ## Claim C2 -/

theorem mem_foldInter :
    ∀ {ms : List (List KVal)} {l : List KVal} {v : KVal},
      v ∈ foldInter l ms ↔ v ∈ l ∧ ∀ m ∈ ms, v ∈ m := by
  intro ms
  induction ms with
  | nil =>
    intro l v
    simp [foldInter]
  | cons m ms ih =>
    intro l v
    have hstep : foldInter l (m :: ms) =
        foldInter (l.filter (fun x => decide (x ∈ m))) ms := rfl
    rw [hstep, ih, List.mem_filter]
    simp only [decide_eq_true_eq, List.mem_cons]
    constructor
    · rintro ⟨⟨hl, hm⟩, hall⟩
      exact ⟨hl, fun m2 hm2 => by
        rcases hm2 with rfl | hm2
        · exact hm
        · exact hall m2 hm2⟩
    · rintro ⟨hl, hall⟩
      exact ⟨⟨hl, hall m (Or.inl rfl)⟩, fun m2 hm2 => hall m2 (Or.inr hm2)⟩

theorem mem_interD {k0 : List KVal} {krest : List (List KVal)} {v : KVal} :
    v ∈ interD (k0 :: krest) ↔ ∀ m ∈ k0 :: krest, v ∈ m := by
  show v ∈ foldInter k0 krest ↔ _
  rw [mem_foldInter]
  simp only [List.mem_cons]
  constructor
  · rintro ⟨h0, hall⟩ m (rfl | hm)
    · exact h0
    · exact hall m hm
  · intro h
    exact ⟨h k0 (Or.inl rfl), fun m hm => h m (Or.inr hm)⟩

theorem interFam_eq {ks : List (List KVal)} (h : ks ≠ []) :
    interFam ks = some (interD ks) := by
  cases ks with
  | nil => exact absurd rfl h
  | cons k0 krest => rfl

theorem mapM_get_range {β : Type} :
    ∀ (l : List β) (s : Nat) (g : Nat → Option β),
      (∀ i, i < l.length → g (s + i) = l.get? i) →
      (List.range' s l.length).mapM g = some l := by
  intro l
  induction l with
  | nil =>
    intro s g _
    rfl
  | cons x xs ih =>
    intro s g h
    rw [List.length_cons, List.range'_succ, List.mapM_cons]
    have h0 : g s = some x := by simpa using h 0 (Nat.succ_pos _)
    have hrest : (List.range' (s + 1) xs.length).mapM g = some xs := by
      refine ih (s + 1) g ?_
      intro i hi
      have := h (i + 1) (by simpa using Nat.succ_lt_succ hi)
      simpa [Nat.add_comm, Nat.add_left_comm, Nat.add_assoc] using this
    rw [h0, hrest]
    rfl

theorem mapM_getSet {ks : List (List KVal)} (hk : ks.length ≠ 1) :
    (List.range ks.length).mapM (fun i => (KVal.info ks).getSet i) = some ks := by
  rw [List.range_eq_range']
  refine mapM_get_range ks 0 _ ?_
  intro i hi
  simp [KVal.getSet, hk]

theorem cbStep_single {ks : List (List KVal)} (hk : ks.length ≠ 1)
    (hne : ks ≠ []) :
    cbStep ks.length [KVal.info ks] = some (interD ks) := by
  unfold cbStep
  rw [List.mapM_cons]
  rw [show ((List.range ks.length).mapM (fun i => (KVal.info ks).getSet i) >>=
      interFam) = ((some ks : Option (List (List KVal))) >>= interFam) from by
    rw [mapM_getSet hk]]
  rw [show ((some ks : Option (List (List KVal))) >>= interFam) =
      interFam ks from rfl, interFam_eq hne]
  rfl

theorem cbLoop_nil {n fuel : Nat} : cbLoop n fuel [] = none := by
  cases fuel with
  | zero => rfl
  | succ f => rfl

theorem cbLoop_step {n f : Nat} {u : KVal} {rest Y : List KVal}
    (hk : u.klen > 1) (hstep : cbStep n (u :: rest) = some Y) :
    cbLoop n (f + 1) (u :: rest) = cbLoop n f Y := by
  rw [cbLoop, if_pos hk, hstep]

theorem cbLoop_done {n f : Nat} {u : KVal} {rest : List KVal}
    (hk : ¬ u.klen > 1) :
    cbLoop n (f + 1) (u :: rest) = some (u :: rest) := by
  rw [cbLoop, if_neg hk]

theorem specUnion_atoms :
    ∀ (l : List Nat), specUnion (l.map KVal.atom) = l.map KVal.atom := by
  intro l
  induction l with
  | nil => rfl
  | cons a rest ih =>
    show specBase (KVal.atom a) ++ specUnion (rest.map KVal.atom) = _
    rw [ih]
    rfl

theorem specSets_atoms :
    ∀ (sets : List (List Nat)),
      specSets (sets.map (fun l => l.map KVal.atom)) =
        sets.map (fun l => l.map KVal.atom) := by
  intro sets
  induction sets with
  | nil => rfl
  | cons l rest ih =>
    show specUnion (l.map KVal.atom) :: specSets (rest.map _) = _
    rw [ih, specUnion_atoms]
    rfl

/-- Auxiliary fact behind the C2 counterexample: the code's
`consistent_base` fails on `c2state` at every fuel value — for fuel at
least two the run genuinely reaches `_pick` on the empty set obtained by
intersecting the bases of the two distinct inner states. -/
theorem consistentBase_c2state_always_none :
    ∀ fuel : Nat, consistentBase c2state fuel = none := by
  intro fuel
  match fuel with
  | 0 => rfl
  | 1 => rfl
  | f + 2 =>
    show cbLoop 2 (f + 2) [c2state] = none
    rw [@cbLoop_step 2 (f + 1) c2state []
      [.info [[.atom 0], [.atom 0]], .info [[.atom 1], [.atom 1]]]
      (by decide) (by decide)]
    rw [@cbLoop_step 2 f (KVal.info [[.atom 0], [.atom 0]])
      [KVal.info [[.atom 1], [.atom 1]]] [] (by decide) (by decide)]
    exact cbLoop_nil

/-- Claim C2 (counterexample): at the depth-two knowledge state
`c2state = Info({u₁,u₂},{u₁,u₂})` with `u₁ = Info({a},{a})` and
`u₂ = Info({b},{b})`, the claimed formula gives
`base = (base(u₁) ∪ base(u₂)) ∩ (base(u₁) ∪ base(u₂)) = {a, b}`,
non-empty, whereas `consistent_base` — which intersects simultaneously
over all of `{u₁,u₂}` — reaches the empty set and raises rather than
producing that value; moreover at the depth-one inconsistent state
`Info({a},{b})` the formula gives `∅` (inconsistent) while the code
raises instead of returning the empty set. -/
theorem consistent_base_spec_mismatch :
    consistentBase c2state 100 = none ∧
    (KVal.atom 0 ∈ specBase c2state ∧ KVal.atom 1 ∈ specBase c2state) ∧
    (consistentBase (KVal.info [[KVal.atom 0], [KVal.atom 1]]) 100 = none ∧
     specBase (KVal.info [[KVal.atom 0], [KVal.atom 1]]) = []) := by
  refine ⟨consistentBase_c2state_always_none 100, ?_, ?_, ?_⟩ <;> decide

/-- Claim C2 (amended): `consistent_base` realises the spec's recursive
definition on atoms and on consistent depth-one knowledge states:
`base(Atom a) = {a}`, and for `s = Info(S₀,…,S_{n-1})` with `n ≥ 2`
players, every `Sᵢ` a set of atoms, and `⋂ᵢ Sᵢ ≠ ∅`, the code returns
exactly the formula's value `⋂ᵢ ⋃_{s'∈Sᵢ} base(s') = ⋂ᵢ Sᵢ`, which is
non-empty (so `s` is consistent).  At larger depth, on single-player
knowledge states, and on inconsistent states, the code instead raises
(`consistent_base_spec_mismatch`). -/
theorem consistent_base_depth_one (sets : List (List Nat)) (fuel : Nat)
    (hn : 2 ≤ sets.length) (hfuel : 2 ≤ fuel)
    (hne : ∃ x : Nat, ∀ l ∈ sets, x ∈ l) :
    (∀ a : Nat, 1 ≤ fuel →
      consistentBase (KVal.atom a) fuel = some (specBase (KVal.atom a))) ∧
    (consistentBase (KVal.info (sets.map (fun l => l.map KVal.atom))) fuel =
       some (specBase (KVal.info (sets.map (fun l => l.map KVal.atom)))) ∧
     specBase (KVal.info (sets.map (fun l => l.map KVal.atom))) ≠ []) := by
  have hatom : ∀ a : Nat, 1 ≤ fuel →
      consistentBase (KVal.atom a) fuel = some (specBase (KVal.atom a)) := by
    intro a hf
    obtain ⟨f, rfl⟩ : ∃ f, fuel = f + 1 := ⟨fuel - 1, by omega⟩
    show cbLoop 1 (f + 1) [KVal.atom a] = some (specBase (KVal.atom a))
    rw [show specBase (KVal.atom a) = [KVal.atom a] from rfl]
    exact cbLoop_done (by simp [KVal.klen])
  refine ⟨hatom, ?_⟩
  cases sets with
  | nil => simp at hn
  | cons l0 lrest =>
    have hlen : ((l0 :: lrest).map (fun l => l.map KVal.atom)).length =
        lrest.length + 1 := by simp
    have hk1 : ((l0 :: lrest).map (fun l => l.map KVal.atom)).length ≠ 1 := by
      rw [hlen]
      simp only [List.length_cons] at hn
      omega
    have hkne : ((l0 :: lrest).map (fun l => l.map KVal.atom)) ≠ [] := by simp
    have hspec : specBase (KVal.info ((l0 :: lrest).map (fun l => l.map KVal.atom))) =
        interD ((l0 :: lrest).map (fun l => l.map KVal.atom)) := by
      rw [show specBase (KVal.info ((l0 :: lrest).map (fun l => l.map KVal.atom))) =
        interD (specSets ((l0 :: lrest).map (fun l => l.map KVal.atom))) from rfl,
        specSets_atoms]
    obtain ⟨x, hx⟩ := hne
    have hxmem : KVal.atom x ∈ interD ((l0 :: lrest).map (fun l => l.map KVal.atom)) := by
      rw [show (l0 :: lrest).map (fun l => l.map KVal.atom) =
        (l0.map KVal.atom) :: (lrest.map (fun l => l.map KVal.atom)) from rfl, mem_interD]
      intro m hm
      have hm2 : m ∈ (l0 :: lrest).map (fun l => l.map KVal.atom) := hm
      rcases List.mem_map.mp hm2 with ⟨l, hl, rfl⟩
      exact List.mem_map.mpr ⟨x, hx l hl, rfl⟩
    have hatoms : ∀ v ∈ interD ((l0 :: lrest).map (fun l => l.map KVal.atom)),
        v.klen = 1 := by
      intro v hv
      have h0 : v ∈ l0.map KVal.atom := (mem_interD.mp hv) (l0.map KVal.atom)
        (List.mem_cons_self _ _)
      rcases List.mem_map.mp h0 with ⟨y, _, rfl⟩
      rfl
    have hne2 : specBase (KVal.info ((l0 :: lrest).map (fun l => l.map KVal.atom))) ≠ [] := by
      rw [hspec]
      intro h
      rw [h] at hxmem
      exact List.not_mem_nil _ hxmem
    refine ⟨?_, hne2⟩
    rw [show consistentBase (KVal.info ((l0 :: lrest).map (fun l => l.map KVal.atom))) fuel =
      cbLoop ((l0 :: lrest).map (fun l => l.map KVal.atom)).length fuel
        [KVal.info ((l0 :: lrest).map (fun l => l.map KVal.atom))] from by
      rw [consistentBase, if_neg hk1]]
    obtain ⟨f, rfl⟩ : ∃ f, fuel = f + 2 := ⟨fuel - 2, by omega⟩
    rw [show f + 2 = (f + 1) + 1 from rfl]
    rw [cbLoop_step (by rw [show (KVal.info ((l0 :: lrest).map (fun l => l.map KVal.atom))).klen =
        ((l0 :: lrest).map (fun l => l.map KVal.atom)).length from rfl, hlen]; omega)
      (cbStep_single hk1 hkne)]
    obtain ⟨w, ws, hw⟩ : ∃ w ws,
        interD ((l0 :: lrest).map (fun l => l.map KVal.atom)) = w :: ws := by
      cases hcs : interD ((l0 :: lrest).map (fun l => l.map KVal.atom)) with
      | nil =>
        rw [hcs] at hxmem
        exact absurd hxmem (List.not_mem_nil _)
      | cons w ws => exact ⟨w, ws, rfl⟩
    rw [hw]
    rw [cbLoop_done ?_, hspec, hw]
    have : w.klen = 1 := hatoms w (by rw [hw]; exact List.mem_cons_self _ _)
    omega

/-- Witness for the amended claim C2, at
`Info({Atom 0, Atom 1}, {Atom 0, Atom 2})` with fuel 2. -/
theorem consistent_base_depth_one_witness :
    2 ≤ ([[0, 1], [0, 2]] : List (List Nat)).length ∧ 2 ≤ 2 ∧
    (∃ x : Nat, ∀ l ∈ ([[0, 1], [0, 2]] : List (List Nat)), x ∈ l) ∧
    ((∀ a : Nat, 1 ≤ 2 →
       consistentBase (KVal.atom a) 2 = some (specBase (KVal.atom a))) ∧
     (consistentBase (KVal.info ((([[0, 1], [0, 2]] : List (List Nat))).map
         (fun l => l.map KVal.atom))) 2 =
        some (specBase (KVal.info ((([[0, 1], [0, 2]] : List (List Nat))).map
          (fun l => l.map KVal.atom)))) ∧
      specBase (KVal.info ((([[0, 1], [0, 2]] : List (List Nat))).map
        (fun l => l.map KVal.atom))) ≠ [])) :=
  ⟨by decide, by decide, ⟨0, by decide⟩,
   consistent_base_depth_one [[0, 1], [0, 2]] 2 (by decide) (by decide)
     ⟨0, by decide⟩⟩

/-! ## Claim C6 -/

theorem kbscFold_tested {G : Game S A} {q : Finset S} :
    ∀ {ps : List (A × List S)} {c : KConfig S A},
      (kbscFold G q ps c).tested = c.tested := by
  intro ps
  induction ps with
  | nil => intro c; rfl
  | cons p ps ih =>
    intro c
    unfold kbscFold
    split
    · exact ih
    · split
      · exact ih
      · exact ih

theorem kbscFold_statesL {G : Game S A} {q : Finset S} :
    ∀ {ps : List (A × List S)} {c : KConfig S A} {x : Finset S},
      x ∈ (kbscFold G q ps c).statesL ↔
        x ∈ c.statesL ∨ ∃ p ∈ ps, x = kSucc G q p ∧ kSucc G q p ≠ ∅ := by
  intro ps
  induction ps with
  | nil =>
    intro c x
    simp [kbscFold]
  | cons p ps ih =>
    intro c x
    unfold kbscFold
    split
    · next hk =>
      rw [ih]
      constructor
      · rintro (h | ⟨p2, hp2, hx, hne⟩)
        · exact Or.inl h
        · exact Or.inr ⟨p2, List.mem_cons_of_mem _ hp2, hx, hne⟩
      · rintro (h | ⟨p2, hp2, hx, hne⟩)
        · exact Or.inl h
        · rcases List.mem_cons.mp hp2 with rfl | hp2
          · exact absurd hk hne
          · exact Or.inr ⟨p2, hp2, hx, hne⟩
    · next hk =>
      split
      · next hmem =>
        rw [ih]
        constructor
        · rintro (h | ⟨p2, hp2, hx, hne⟩)
          · exact Or.inl h
          · exact Or.inr ⟨p2, List.mem_cons_of_mem _ hp2, hx, hne⟩
        · rintro (h | ⟨p2, hp2, hx, hne⟩)
          · exact Or.inl h
          · rcases List.mem_cons.mp hp2 with rfl | hp2
            · subst hx
              exact Or.inl hmem
            · exact Or.inr ⟨p2, hp2, hx, hne⟩
      · next hmem =>
        rw [ih]
        simp only [List.mem_append, List.mem_singleton]
        constructor
        · rintro ((h | rfl) | ⟨p2, hp2, hx, hne⟩)
          · exact Or.inl h
          · exact Or.inr ⟨p, List.mem_cons_self _ _, rfl, hk⟩
          · exact Or.inr ⟨p2, List.mem_cons_of_mem _ hp2, hx, hne⟩
        · rintro (h | ⟨p2, hp2, hx, hne⟩)
          · exact Or.inl (Or.inl h)
          · rcases List.mem_cons.mp hp2 with rfl | hp2
            · exact Or.inl (Or.inr hx)
            · exact Or.inr ⟨p2, hp2, hx, hne⟩

theorem kbscFold_queue {G : Game S A} {q : Finset S} :
    ∀ {ps : List (A × List S)} {c : KConfig S A} {x : Finset S},
      x ∈ (kbscFold G q ps c).queue ↔
        x ∈ c.queue ∨
          (x ∉ c.statesL ∧ ∃ p ∈ ps, x = kSucc G q p ∧ kSucc G q p ≠ ∅) := by
  intro ps
  induction ps with
  | nil =>
    intro c x
    simp [kbscFold]
  | cons p ps ih =>
    intro c x
    unfold kbscFold
    split
    · next hk =>
      rw [ih]
      constructor
      · rintro (h | ⟨hnx, p2, hp2, hx, hne⟩)
        · exact Or.inl h
        · exact Or.inr ⟨hnx, p2, List.mem_cons_of_mem _ hp2, hx, hne⟩
      · rintro (h | ⟨hnx, p2, hp2, hx, hne⟩)
        · exact Or.inl h
        · rcases List.mem_cons.mp hp2 with rfl | hp2
          · exact absurd hk hne
          · exact Or.inr ⟨hnx, p2, hp2, hx, hne⟩
    · next hk =>
      split
      · next hmem =>
        rw [ih]
        constructor
        · rintro (h | ⟨hnx, p2, hp2, hx, hne⟩)
          · exact Or.inl h
          · exact Or.inr ⟨hnx, p2, List.mem_cons_of_mem _ hp2, hx, hne⟩
        · rintro (h | ⟨hnx, p2, hp2, hx, hne⟩)
          · exact Or.inl h
          · rcases List.mem_cons.mp hp2 with rfl | hp2
            · subst hx
              exact absurd hmem hnx
            · exact Or.inr ⟨hnx, p2, hp2, hx, hne⟩
      · next hmem =>
        rw [ih]
        simp only [List.mem_append, List.mem_singleton]
        constructor
        · rintro ((h | rfl) | ⟨hnx, p2, hp2, hx, hne⟩)
          · exact Or.inl h
          · exact Or.inr ⟨hmem, p, List.mem_cons_self _ _, rfl, hk⟩
          · exact Or.inr ⟨fun hxc => hnx (Or.inl hxc), p2,
              List.mem_cons_of_mem _ hp2, hx, hne⟩
        · rintro (h | ⟨hnx, p2, hp2, hx, hne⟩)
          · exact Or.inl (Or.inl h)
          · rcases List.mem_cons.mp hp2 with rfl | hp2
            · exact Or.inl (Or.inr hx)
            · by_cases hxk : x = kSucc G q p
              · exact Or.inl (Or.inr hxk)
              · refine Or.inr ⟨?_, p2, hp2, hx, hne⟩
                rintro (h2 | h2)
                · exact hnx h2
                · exact hxk h2

theorem kbscFold_trans {G : Game S A} {q : Finset S} :
    ∀ {ps : List (A × List S)} {c : KConfig S A}
      {t : Finset S × List A × Finset S},
      t ∈ (kbscFold G q ps c).trans ↔
        t ∈ c.trans ∨
          ∃ p ∈ ps, t = (q, [p.1], kSucc G q p) ∧ kSucc G q p ≠ ∅ := by
  intro ps
  induction ps with
  | nil =>
    intro c t
    simp [kbscFold]
  | cons p ps ih =>
    intro c t
    unfold kbscFold
    split
    · next hk =>
      rw [ih]
      constructor
      · rintro (h | ⟨p2, hp2, hx, hne⟩)
        · exact Or.inl h
        · exact Or.inr ⟨p2, List.mem_cons_of_mem _ hp2, hx, hne⟩
      · rintro (h | ⟨p2, hp2, hx, hne⟩)
        · exact Or.inl h
        · rcases List.mem_cons.mp hp2 with rfl | hp2
          · exact absurd hk hne
          · exact Or.inr ⟨p2, hp2, hx, hne⟩
    · next hk =>
      have hgen : ∀ c2 : KConfig S A,
          t ∈ (kbscFold G q ps
            { c2 with trans := c2.trans ++ [(q, [p.1], kSucc G q p)] }).trans ↔
          (t ∈ c2.trans ∨
            ∃ p2 ∈ p :: ps, t = (q, [p2.1], kSucc G q p2) ∧ kSucc G q p2 ≠ ∅) := by
        intro c2
        rw [ih]
        simp only [List.mem_append, List.mem_singleton]
        constructor
        · rintro ((h | rfl) | ⟨p2, hp2, hx, hne⟩)
          · exact Or.inl h
          · exact Or.inr ⟨p, List.mem_cons_self _ _, rfl, hk⟩
          · exact Or.inr ⟨p2, List.mem_cons_of_mem _ hp2, hx, hne⟩
        · rintro (h | ⟨p2, hp2, hx, hne⟩)
          · exact Or.inl (Or.inl h)
          · rcases List.mem_cons.mp hp2 with rfl | hp2
            · exact Or.inl (Or.inr hx)
            · exact Or.inr ⟨p2, hp2, hx, hne⟩
      split
      · exact hgen c
      · exact hgen
          { c with
            statesL := c.statesL ++ [kSucc G q p]
            queue := c.queue ++ [kSucc G q p] }

theorem mem_kbscPairs {G : Game S A} {p : A × List S} :
    p ∈ kbscPairs G ↔
      p.1 ∈ G.alphabet.headD [] ∧ p.2 ∈ G.partitionings.headD [] := by
  cases p with
  | mk a obs =>
    simp only [kbscPairs, List.mem_flatMap, List.mem_map, Prod.mk.injEq]
    constructor
    · rintro ⟨a2, ha2, o, ho, rfl, rfl⟩
      exact ⟨ha2, ho⟩
    · rintro ⟨ha, ho⟩
      exact ⟨a, ha, obs, ho, rfl, rfl⟩

theorem charT_iff_pair {G : Game S A} {q k : Finset S} {la : List A} :
    (∃ p ∈ kbscPairs G,
        ((q, la, k) : Finset S × List A × Finset S) =
          (q, [p.1], kSucc G q p) ∧ kSucc G q p ≠ ∅) ↔
      charT G (q, la, k) := by
  constructor
  · rintro ⟨⟨a, obs⟩, hp, heq, hne⟩
    rcases mem_kbscPairs.mp hp with ⟨ha, ho⟩
    obtain ⟨hla, hk⟩ : la = [a] ∧ k = kSucc G q (a, obs) := by
      simpa [Prod.ext_iff] using heq
    exact ⟨a, ha, obs, ho, hla, hk, by simpa [kSucc] using hne⟩
  · rintro ⟨a, ha, o, ho, hla, hk, hne⟩
    refine ⟨(a, o), mem_kbscPairs.mpr ⟨ha, ho⟩, ?_, by simpa [kSucc] using hne⟩
    simp only [Prod.mk.injEq, true_and]
    exact ⟨hla, hk⟩

theorem kbscLoop_inv {G : Game S A}
    (hwf : ∀ t ∈ G.transitions, t.1 ∈ G.states ∧ t.2.2 ∈ G.states) :
    ∀ {fuel : Nat} {c : KConfig S A}, KInv G c → KInv G (kbscLoop G fuel c) := by
  intro fuel
  induction fuel with
  | zero => exact fun h => h
  | succ n ih =>
    intro c h
    obtain ⟨hq, ht, hcov, hgood, htr⟩ := h
    cases hqe : c.queue with
    | nil =>
      simp only [kbscLoop, hqe]
      exact ⟨hq, ht, hcov, hgood, htr⟩
    | cons q rest =>
      have hqs : q ∈ c.statesL := hq q (by rw [hqe]; exact List.mem_cons_self _ _)
      simp only [kbscLoop, hqe]
      split
      · next hqt =>
        refine ih ⟨?_, ht, ?_, hgood, htr⟩
        · intro x hx
          exact hq x (by rw [hqe]; exact List.mem_cons_of_mem _ hx)
        · intro x hx
          rcases hcov x hx with hx2 | hx2
          · exact Or.inl hx2
          · rw [hqe] at hx2
            rcases List.mem_cons.mp hx2 with rfl | hx2
            · exact Or.inl hqt
            · exact Or.inr hx2
      · next hqt =>
        refine ih ⟨?_, ?_, ?_, ?_, ?_⟩
        · -- queue_sub
          intro x hx
          rw [kbscFold_queue] at hx
          rw [kbscFold_statesL]
          rcases hx with hx | ⟨_, p2, hp2, hx, hne⟩
          · exact Or.inl (hq x (by rw [hqe]; exact List.mem_cons_of_mem _ hx))
          · exact Or.inr ⟨p2, hp2, hx, hne⟩
        · -- tested_sub
          intro x hx
          rw [kbscFold_tested] at hx
          rw [kbscFold_statesL]
          rcases List.mem_append.mp hx with hx | hx
          · exact Or.inl (ht x hx)
          · rw [List.mem_singleton] at hx
            subst hx
            exact Or.inl hqs
        · -- cover
          intro x hx
          rw [kbscFold_statesL] at hx
          by_cases hxc : x ∈ c.statesL
          · rcases hcov x hxc with hx2 | hx2
            · left
              rw [kbscFold_tested]
              exact List.mem_append.mpr (Or.inl hx2)
            · rw [hqe] at hx2
              rcases List.mem_cons.mp hx2 with rfl | hx2
              · left
                rw [kbscFold_tested]
                exact List.mem_append.mpr (Or.inr (List.mem_singleton.mpr rfl))
              · right
                rw [kbscFold_queue]
                exact Or.inl hx2
          · rcases hx with hx | ⟨p2, hp2, hx, hne⟩
            · exact absurd hx hxc
            · right
              rw [kbscFold_queue]
              exact Or.inr ⟨hxc, p2, hp2, hx, hne⟩
        · -- good
          intro x hx
          rw [kbscFold_statesL] at hx
          rcases hx with hx | ⟨p2, _, rfl, hne⟩
          · exact hgood x hx
          · constructor
            · exact Finset.nonempty_iff_ne_empty.mpr hne
            · intro s hs
              have hs2 : s ∈ G.post [p2.1] q := (Finset.mem_inter.mp hs).1
              rcases mem_post.mp hs2 with ⟨s0, _, hedge⟩
              exact (hwf _ hedge).2
        · -- trans characterisation
          intro t
          rw [kbscFold_trans, kbscFold_tested]
          constructor
          · rintro (hold | ⟨p2, hp2, rfl, hne⟩)
            · rcases (htr t).mp hold with ⟨htest, hchar⟩
              exact ⟨List.mem_append.mpr (Or.inl htest), hchar⟩
            · refine ⟨List.mem_append.mpr (Or.inr (List.mem_singleton.mpr rfl)), ?_⟩
              exact charT_iff_pair.mp ⟨p2, hp2, rfl, hne⟩
          · rintro ⟨htest, hchar⟩
            rcases List.mem_append.mp htest with htest | htest
            · exact Or.inl ((htr t).mpr ⟨htest, hchar⟩)
            · rw [List.mem_singleton] at htest
              obtain ⟨t1, la, k⟩ := t
              have ht1 : t1 = q := htest
              subst ht1
              exact Or.inr (charT_iff_pair.mpr hchar)

/-- Claim C6: for a single-player game `G` with alphabet `(Σ₀,)` and
partitioning `Π₀` (and well-formed transitions and initial state), when
the KBSC worklist completes, the result has initial state `{s₀}`, every
produced state is a non-empty subset of `G`'s states, there is a
transition `(q, (a,), k)` exactly when `q` is a produced state,
`a ∈ Σ₀`, and `k = post(G, a, q) ∩ o` is non-empty for some observation
`o ∈ Π₀` (the empty intersection produces no transition), and the output
partitioning is the trivial one with one singleton observation per
produced state. -/
theorem kbsc1_correct (G : Game S A) (sg : List A) (pt : List (List S))
    (fuel : Nat) (hA : G.alphabet = [sg]) (hP : G.partitionings = [pt])
    (hdone : (kbsc1 G fuel).queue = [])
    (hwf : ∀ t ∈ G.transitions, t.1 ∈ G.states ∧ t.2.2 ∈ G.states)
    (hinit : G.initial ∈ G.states) :
    (kbsc1Game G fuel).initial = {G.initial} ∧
    (∀ q ∈ (kbsc1 G fuel).statesL, q.Nonempty ∧ ∀ s ∈ q, s ∈ G.states) ∧
    (∀ (q k : Finset S) (a : A),
      ((q, [a], k) ∈ (kbsc1 G fuel).trans ↔
        q ∈ (kbsc1 G fuel).statesL ∧ a ∈ sg ∧
        ∃ o ∈ pt, k = G.post [a] q ∩ o.toFinset ∧ k ≠ ∅)) ∧
    (kbsc1Game G fuel).partitionings =
      [(kbsc1 G fuel).statesL.map (fun k => [k])] := by
  have hh1 : G.alphabet.headD [] = sg := by rw [hA]; rfl
  have hh2 : G.partitionings.headD [] = pt := by rw [hP]; rfl
  have hinv : KInv G (kbsc1 G fuel) := by
    refine kbscLoop_inv hwf ⟨?_, ?_, ?_, ?_, ?_⟩
    · intro x hx
      exact hx
    · intro x hx
      exact absurd hx (List.not_mem_nil x)
    · intro x hx
      exact Or.inr hx
    · intro x hx
      rw [show (kbscInit G).statesL = [{G.initial}] from rfl,
        List.mem_singleton] at hx
      subst hx
      refine ⟨Finset.singleton_nonempty _, fun s hs => ?_⟩
      rw [Finset.mem_singleton] at hs
      subst hs
      exact hinit
    · intro t
      constructor
      · intro h
        exact absurd h (List.not_mem_nil t)
      · rintro ⟨h, _⟩
        exact absurd h (List.not_mem_nil _)
  obtain ⟨hq, ht, hcov, hgood, htr⟩ := hinv
  have hts : ∀ x, x ∈ (kbsc1 G fuel).tested ↔ x ∈ (kbsc1 G fuel).statesL := by
    intro x
    constructor
    · exact ht x
    · intro hx
      rcases hcov x hx with h | h
      · exact h
      · rw [hdone] at h
        exact absurd h (List.not_mem_nil x)
  refine ⟨rfl, hgood, ?_, rfl⟩
  intro q k a
  rw [htr (q, [a], k)]
  constructor
  · rintro ⟨htest, a2, ha2, o, ho, hla, hk, hne⟩
    have hla2 : ([a] : List A) = [a2] := hla
    have ha2q : a = a2 := by simpa using hla2
    subst ha2q
    rw [hh1] at ha2
    rw [hh2] at ho
    have hk2 : k = G.post [a] q ∩ o.toFinset := hk
    have hne2 : G.post [a] q ∩ o.toFinset ≠ ∅ := hne
    refine ⟨(hts q).mp htest, ha2, o, ho, hk2, ?_⟩
    rw [hk2]
    exact hne2
  · rintro ⟨hqs, ha, o, ho, hk, hne⟩
    have hne2 : G.post [a] q ∩ o.toFinset ≠ ∅ := by
      rw [← hk]
      exact hne
    exact ⟨(hts q).mpr hqs, a, by rw [hh1]; exact ha, o, by rw [hh2]; exact ho,
      rfl, hk, hne2⟩

/-! ## Claim C4 -/

theorem digitChar_isDigit {d : Nat} (h : d < 10) :
    (digitChar d).isDigit = true := by
  match d, h with
  | 0, _ => decide
  | 1, _ => decide
  | 2, _ => decide
  | 3, _ => decide
  | 4, _ => decide
  | 5, _ => decide
  | 6, _ => decide
  | 7, _ => decide
  | 8, _ => decide
  | 9, _ => decide

theorem digitChar_toNat {d : Nat} (h : d < 10) :
    (digitChar d).toNat - 48 = d := by
  match d, h with
  | 0, _ => decide
  | 1, _ => decide
  | 2, _ => decide
  | 3, _ => decide
  | 4, _ => decide
  | 5, _ => decide
  | 6, _ => decide
  | 7, _ => decide
  | 8, _ => decide
  | 9, _ => decide

theorem isDigit_ne_sep {c : Char} (h : c.isDigit = true) :
    c ≠ ',' ∧ c ≠ '=' ∧ c ≠ '|' ∧ c ≠ ' ' ∧ c ≠ '\n' := by
  refine ⟨?_, ?_, ?_, ?_, ?_⟩ <;>
    · rintro rfl
      simp at h

theorem natDigitsAux_digits :
    ∀ (fuel n : Nat), ∀ c ∈ natDigitsAux fuel n, c.isDigit = true := by
  intro fuel
  induction fuel with
  | zero =>
    intro n c hc
    cases n with
    | zero => simp [natDigitsAux] at hc
    | succ m => simp [natDigitsAux] at hc
  | succ f ih =>
    intro n c hc
    cases n with
    | zero => simp [natDigitsAux] at hc
    | succ m =>
      rw [natDigitsAux] at hc
      rcases List.mem_append.mp hc with hc | hc
      · exact ih _ c hc
      · rw [List.mem_singleton] at hc
        subst hc
        exact digitChar_isDigit (Nat.mod_lt _ (by omega))

theorem renderNat_digits {n : Nat} : ∀ c ∈ renderNat n, c.isDigit = true := by
  intro c hc
  unfold renderNat at hc
  split at hc
  · rw [List.mem_singleton] at hc
    subst hc
    decide
  · exact natDigitsAux_digits n n c hc

theorem natDigitsAux_ne_nil {fuel n : Nat} (hf : n ≤ fuel) (hn : n ≠ 0) :
    natDigitsAux fuel n ≠ [] := by
  cases fuel with
  | zero =>
    omega
  | succ f =>
    cases n with
    | zero => exact absurd rfl hn
    | succ m =>
      rw [natDigitsAux]
      simp

theorem renderNat_ne_nil {n : Nat} : renderNat n ≠ [] := by
  unfold renderNat
  split
  · simp
  · next h => exact natDigitsAux_ne_nil (Nat.le_refl n) h

theorem foldl_natDigitsAux :
    ∀ (fuel : Nat) (n : Nat), n ≤ fuel → ∀ (acc : Nat),
      (natDigitsAux fuel n).foldl (fun a c => 10 * a + (c.toNat - 48)) acc =
        acc * 10 ^ (natDigitsAux fuel n).length + n := by
  intro fuel
  induction fuel with
  | zero =>
    intro n hn acc
    interval_cases n
    simp [natDigitsAux]
  | succ f ih =>
    intro n hn acc
    cases n with
    | zero => simp [natDigitsAux]
    | succ m =>
      rw [natDigitsAux, List.foldl_append, List.length_append]
      have hdiv : (m + 1) / 10 ≤ f := by omega
      rw [ih _ hdiv acc]
      simp only [List.foldl_cons, List.foldl_nil, List.length_singleton]
      rw [digitChar_toNat (Nat.mod_lt _ (by omega))]
      rw [pow_succ]
      have : (m + 1) % 10 + 10 * ((m + 1) / 10) = m + 1 := Nat.mod_add_div _ _
      ring_nf
      omega

theorem parseNatTok_renderNat {n : Nat} : parseNatTok (renderNat n) = some n := by
  unfold parseNatTok
  rw [if_pos]
  · congr 1
    unfold renderNat
    split
    · next h =>
      subst h
      decide
    · next h =>
      have := foldl_natDigitsAux n n (Nat.le_refl n) 0
      simpa using this
  · refine ⟨renderNat_ne_nil, ?_⟩
    rw [List.all_eq_true]
    intro c hc
    exact renderNat_digits c hc

theorem takeWhile_all_append {p : Char → Bool} :
    ∀ {l : List Char}, (∀ c ∈ l, p c = true) →
      ∀ {sep : Char}, p sep = false → ∀ (r : List Char),
      (l ++ sep :: r).takeWhile p = l ∧ (l ++ sep :: r).dropWhile p = sep :: r := by
  intro l
  induction l with
  | nil =>
    intro _ sep hsep r
    simp [List.takeWhile_cons, List.dropWhile_cons, hsep]
  | cons c cs ih =>
    intro hall sep hsep r
    have hc : p c = true := hall c (List.mem_cons_self _ _)
    have hrest := ih (fun x hx => hall x (List.mem_cons_of_mem _ hx)) hsep r
    simp only [List.cons_append, List.takeWhile_cons, List.dropWhile_cons, hc,
      if_true]
    exact ⟨by rw [hrest.1], by rw [hrest.2]⟩

theorem takeWhile_all {p : Char → Bool} :
    ∀ {l : List Char}, (∀ c ∈ l, p c = true) →
      l.takeWhile p = l ∧ l.dropWhile p = [] := by
  intro l
  induction l with
  | nil =>
    intro _
    simp
  | cons c cs ih =>
    intro hall
    have hc : p c = true := hall c (List.mem_cons_self _ _)
    have hrest := ih (fun x hx => hall x (List.mem_cons_of_mem _ hx))
    simp only [List.takeWhile_cons, List.dropWhile_cons, hc, if_true]
    exact ⟨by rw [hrest.1], hrest.2⟩

theorem sepJoin_eq_intercalate (sep : Char) :
    ∀ ls : List (List Char), sepJoin sep ls = List.intercalate [sep] ls := by
  intro ls
  induction ls with
  | nil => rfl
  | cons l ls ih =>
    cases ls with
    | nil => simp [sepJoin, List.intercalate]
    | cons l2 ls2 =>
      rw [sepJoin, ih]
      simp [List.intercalate, List.intersperse]

theorem splitOn_sepJoin {sep : Char} {ls : List (List Char)}
    (h : ∀ l ∈ ls, sep ∉ l) (hne : ls ≠ []) :
    (sepJoin sep ls).splitOn sep = ls := by
  rw [sepJoin_eq_intercalate]
  exact List.splitOn_intercalate _ sep h hne

theorem mem_sepJoin {sep : Char} :
    ∀ {ls : List (List Char)} {c : Char},
      c ∈ sepJoin sep ls → c = sep ∨ ∃ l ∈ ls, c ∈ l := by
  intro ls
  induction ls with
  | nil =>
    intro c hc
    simp [sepJoin] at hc
  | cons l ls ih =>
    intro c hc
    cases ls with
    | nil =>
      exact Or.inr ⟨l, List.mem_cons_self _ _, hc⟩
    | cons l2 ls2 =>
      rw [sepJoin] at hc
      rcases List.mem_append.mp hc with hc | hc
      · exact Or.inr ⟨l, List.mem_cons_self _ _, hc⟩
      · rcases List.mem_cons.mp hc with rfl | hc
        · exact Or.inl rfl
        · rcases ih hc with h | ⟨l3, hl3, hc3⟩
          · exact Or.inl h
          · exact Or.inr ⟨l3, List.mem_cons_of_mem _ hl3, hc3⟩

theorem takeSection_spec :
    ∀ {sec rest : List (List Char)}, (∀ l ∈ sec, l ≠ []) →
      takeSection (sec ++ [] :: rest) = some (sec, rest) := by
  intro sec
  induction sec with
  | nil =>
    intro rest _
    rfl
  | cons l sec ih =>
    intro rest h
    rw [List.cons_append, takeSection,
      if_neg (h l (List.mem_cons_self _ _)),
      ih (fun x hx => h x (List.mem_cons_of_mem _ hx))]

theorem renderNat_cons :
    ∀ n : Nat, ∃ c cs, renderNat n = c :: cs ∧ c.isDigit = true := by
  intro n
  cases hr : renderNat n with
  | nil => exact absurd hr renderNat_ne_nil
  | cons c cs =>
    refine ⟨c, cs, rfl, ?_⟩
    have : c ∈ renderNat n := by rw [hr]; exact List.mem_cons_self _ _
    exact renderNat_digits c this

theorem scanActions_alphaLine :
    ∀ (pl : List Int) (fuel : Nat), (∀ a ∈ pl, 0 ≤ a) →
      (alphaLine pl).length ≤ fuel →
      scanActions fuel (alphaLine pl) = some pl := by
  intro pl
  induction pl with
  | nil =>
    intro fuel _ _
    cases fuel <;> rfl
  | cons a tl ih =>
    intro fuel hnn hlen
    have ha : 0 ≤ a := hnn a (List.mem_cons_self _ _)
    have hra : renderInt a = renderNat a.toNat := by
      unfold renderInt
      rw [if_neg (by omega)]
    obtain ⟨c, cs, hcc, hcd⟩ := renderNat_cons a.toNat
    have hdigits : ∀ x ∈ c :: cs, x.isDigit = true := by
      rw [← hcc]
      exact renderNat_digits
    cases tl with
    | nil =>
      have hline : alphaLine [a] = c :: cs := by
        show renderInt a = c :: cs
        rw [hra, hcc]
      rw [hline] at hlen ⊢
      obtain ⟨f, rfl⟩ : ∃ f, fuel = f + 1 :=
        ⟨fuel - 1, by simp at hlen; omega⟩
      rw [scanActions, if_pos hcd]
      have htw := @takeWhile_all (fun ch => decide (ch ≠ ','))
        (c :: cs) (fun x hx => by
          simp only [decide_eq_true_eq]
          exact (isDigit_ne_sep (hdigits x hx)).1)
      rw [htw.1, htw.2, ← hcc, parseNatTok_renderNat]
      show some [((a.toNat : Int))] = some [a]
      rw [Int.toNat_of_nonneg ha]
    | cons b tl2 =>
      have hline : alphaLine (a :: b :: tl2) =
          c :: (cs ++ ',' :: alphaLine (b :: tl2)) := by
        show renderInt a ++ ',' :: sepJoin ',' ((b :: tl2).map renderInt) =
          c :: (cs ++ ',' :: alphaLine (b :: tl2))
        rw [hra, hcc]
        rfl
      rw [hline] at hlen ⊢
      obtain ⟨f, rfl⟩ : ∃ f, fuel = f + 1 :=
        ⟨fuel - 1, by simp at hlen; omega⟩
      rw [scanActions, if_pos hcd]
      have htw := @takeWhile_all_append (fun ch => decide (ch ≠ ','))
        (c :: cs) (fun x hx => by
          simp only [decide_eq_true_eq]
          exact (isDigit_ne_sep (hdigits x hx)).1)
        ',' (by simp) (alphaLine (b :: tl2))
      rw [show ((c :: cs) ++ ',' :: alphaLine (b :: tl2)) =
        c :: (cs ++ ',' :: alphaLine (b :: tl2)) from rfl] at htw
      rw [htw.1, htw.2, ← hcc, parseNatTok_renderNat]
      have hrec := ih f (fun x hx => hnn x (List.mem_cons_of_mem _ hx)) (by
        simp only [List.length_cons, List.length_append] at hlen ⊢
        omega)
      show Option.map (fun vs => ((a.toNat : Int)) :: vs)
        (scanActions f (alphaLine (b :: tl2))) = some (a :: b :: tl2)
      rw [hrec]
      show some (((a.toNat : Int)) :: b :: tl2) = some (a :: b :: tl2)
      rw [Int.toNat_of_nonneg ha]

theorem mapM_scanActions (alphs : List (List Int))
    (h : ∀ pl ∈ alphs, ∀ a ∈ pl, 0 ≤ a) :
    (alphs.map alphaLine).mapM (fun l => scanActions l.length l) = some alphs := by
  induction alphs with
  | nil => rfl
  | cons pl pls ih =>
    rw [List.map_cons, List.mapM_cons]
    rw [scanActions_alphaLine pl _ (h pl (List.mem_cons_self _ _)) (Nat.le_refl _)]
    rw [ih (fun x hx => h x (List.mem_cons_of_mem _ hx))]
    rfl

theorem parseBaseLine_render {i : Nat} {v : Int} (hv : 0 ≤ v) :
    parseBaseLine (renderNat i ++ '=' :: renderInt v) = some (i, v) := by
  have hrv : renderInt v = renderNat v.toNat := by
    unfold renderInt
    rw [if_neg (by omega)]
  obtain ⟨c, cs, hcc, hcd⟩ := renderNat_cons v.toNat
  unfold parseBaseLine
  rw [if_pos (List.mem_append.mpr (Or.inr (List.mem_cons_self _ _)))]
  have htw := @takeWhile_all_append (fun ch => decide (ch ≠ '='))
    (renderNat i) (fun x hx => by
      simp only [decide_eq_true_eq]
      exact (isDigit_ne_sep (renderNat_digits x hx)).2.1)
    '=' (by simp) (renderInt v)
  rw [htw.1, htw.2, parseNatTok_renderNat]
  rw [hrv, hcc]
  show (match (c :: cs : List Char) with
    | [] => none
    | c :: restv =>
      if c.isDigit then
        (parseNatTok (c :: restv)).map (fun v2 => (i, (v2 : Int)))
      else none) = some (i, v)
  rw [show (match (c :: cs : List Char) with
    | [] => none
    | c :: restv =>
      if c.isDigit then
        (parseNatTok (c :: restv)).map (fun v2 => (i, (v2 : Int)))
      else none) = (if c.isDigit then
        (parseNatTok (c :: cs)).map (fun v2 => (i, (v2 : Int)))
      else none) from rfl]
  rw [if_pos hcd, ← hcc, parseNatTok_renderNat]
  show some (i, ((v.toNat : Int))) = some (i, v)
  rw [Int.toNat_of_nonneg hv]

theorem mapM_parseBaseLine (prs : List (Nat × Int))
    (h : ∀ p ∈ prs, 0 ≤ p.2) :
    (prs.map (fun p => renderNat p.1 ++ '=' :: renderInt p.2)).mapM
      parseBaseLine = some prs := by
  induction prs with
  | nil => rfl
  | cons p ps ih =>
    rw [List.map_cons, List.mapM_cons,
      parseBaseLine_render (h p (List.mem_cons_self _ _)),
      ih (fun x hx => h x (List.mem_cons_of_mem _ hx))]
    rfl

theorem find_enumFrom (l : List Int) :
    ∀ (n k : Nat),
      ((l.enumFrom n).find? (fun p => decide (p.1 = n + k))).map
        (fun p => p.2) = l.get? k := by
  induction l with
  | nil =>
    intro n k
    rfl
  | cons x xs ih =>
    intro n k
    rw [show (x :: xs).enumFrom n = (n, x) :: xs.enumFrom (n + 1) from rfl]
    cases k with
    | zero =>
      rw [List.find?_cons_of_pos _ (by simp)]
      rfl
    | succ j =>
      rw [List.find?_cons_of_neg _ (by simp)]
      rw [show n + (j + 1) = (n + 1) + j from by omega]
      exact ih (n + 1) j

theorem lookupState_enum {l : List Int} {k : Nat} :
    lookupState l.enum k = l.get? k := by
  have := find_enumFrom l 0 k
  simpa [lookupState, List.enum] using this

theorem lookupState_idx {l : List Int} {s : Int} (h : s ∈ l) :
    lookupState l.enum (l.indexOf s) = some s := by
  rw [lookupState_enum]
  exact List.indexOf_get? h

theorem not_mem_renderNat {k : Nat} {c : Char} (hc : c.isDigit = false) :
    c ∉ renderNat k := fun hmem => by
  rw [renderNat_digits c hmem] at hc
  exact Bool.noConfusion hc

theorem actionsOk_get :
    ∀ (la : List Int) (alph : List (List Int)), actionsOk la alph = true →
      ∀ (j : Nat) (a : Int), la.get? j = some a →
        j < alph.length ∧ a ∈ alph.getD j [] := by
  intro la
  induction la with
  | nil =>
    intro alph _ j a hja
    simp at hja
  | cons x xs ih =>
    intro alph hok j a hja
    cases alph with
    | nil => exact absurd hok (by simp [actionsOk])
    | cons pl pls =>
      rw [actionsOk, Bool.and_eq_true, decide_eq_true_eq] at hok
      cases j with
      | zero =>
        have hxa : x = a := by simpa using hja
        subst hxa
        exact ⟨by simp, hok.1⟩
      | succ j2 =>
        have hrec := ih pls hok.2 j2 a (by simpa using hja)
        exact ⟨by simpa using Nat.succ_lt_succ hrec.1, by simpa using hrec.2⟩

theorem get_of_mem_enumFrom :
    ∀ (l : List Int) (n : Nat) (p : Nat × Int), p ∈ l.enumFrom n →
      n ≤ p.1 ∧ l.get? (p.1 - n) = some p.2 := by
  intro l
  induction l with
  | nil =>
    intro n p hp
    simp at hp
  | cons x xs ih =>
    intro n p hp
    rw [show (x :: xs).enumFrom n = (n, x) :: xs.enumFrom (n + 1) from rfl] at hp
    rcases List.mem_cons.mp hp with rfl | hp
    · exact ⟨Nat.le_refl n, by simp⟩
    · obtain ⟨h1, h2⟩ := ih (n + 1) p hp
      refine ⟨by omega, ?_⟩
      rw [show p.1 - n = (p.1 - (n + 1)) + 1 from by omega]
      simpa using h2

theorem get_of_mem_enum {l : List Int} {p : Nat × Int} (hp : p ∈ l.enum) :
    l.get? p.1 = some p.2 := by
  have := get_of_mem_enumFrom l 0 p (by simpa [List.enum] using hp)
  simpa using this.2

theorem flatten_get_actionIdx :
    ∀ (alph : List (List Int)) (i : Nat) (a : Int),
      i < alph.length → a ∈ alph.getD i [] →
      alph.flatten.get? (actionIdx alph i a) = some a := by
  intro alph
  induction alph with
  | nil =>
    intro i a hi _
    simp at hi
  | cons pl pls ih =>
    intro i a hi ha
    cases i with
    | zero =>
      have ha2 : a ∈ pl := by simpa using ha
      have hidx : actionIdx (pl :: pls) 0 a = pl.indexOf a := by
        unfold actionIdx
        simp
      rw [hidx, List.flatten_cons,
        List.get?_append (List.indexOf_lt_length.mpr ha2)]
      exact List.indexOf_get? ha2
    | succ j =>
      have ha2 : a ∈ pls.getD j [] := by simpa using ha
      have hidx : actionIdx (pl :: pls) (j + 1) a =
          pl.length + actionIdx pls j a := by
        unfold actionIdx
        simp [List.take_succ_cons, Nat.add_assoc]
      rw [hidx, List.flatten_cons,
        List.get?_append_right (Nat.le_add_right _ _)]
      rw [Nat.add_sub_cancel_left]
      exact ih j a (by simpa using hi) ha2

theorem mapM_actTokens {alph : List (List Int)} :
    ∀ (prs : List (Nat × Int)),
      (∀ p ∈ prs, p.1 < alph.length ∧ p.2 ∈ alph.getD p.1 []) →
      (prs.map (fun p => renderNat (actionIdx alph p.1 p.2))).mapM
        (fun tok => (match parseNatTok tok with
          | none => none
          | some k => alph.flatten.get? k : Option Int)) =
        some (prs.map Prod.snd) := by
  intro prs
  induction prs with
  | nil =>
    intro _
    rfl
  | cons p ps ih =>
    intro h
    obtain ⟨h1, h2⟩ := h p (List.mem_cons_self _ _)
    rw [List.map_cons, List.mapM_cons, parseNatTok_renderNat]
    show (do
      let x ← alph.flatten.get? (actionIdx alph p.1 p.2)
      let xs ← (ps.map (fun p => renderNat (actionIdx alph p.1 p.2))).mapM
        (fun tok => (match parseNatTok tok with
          | none => none
          | some k => alph.flatten.get? k : Option Int))
      pure (x :: xs)) = some (p.2 :: ps.map Prod.snd)
    rw [flatten_get_actionIdx alph p.1 p.2 h1 h2,
      ih (fun x hx => h x (List.mem_cons_of_mem _ hx))]
    rfl

theorem mapM_obsTokens {sts : List Int} :
    ∀ (obs : List Int), (∀ s ∈ obs, s ∈ sts) →
      (obs.map (fun s => renderNat (stateIdx sts s))).mapM
        (fun tok => (match parseNatTok tok with
          | none => none
          | some k => lookupState sts.enum k : Option Int)) = some obs := by
  intro obs
  induction obs with
  | nil =>
    intro _
    rfl
  | cons s rest ih =>
    intro h
    rw [List.map_cons, List.mapM_cons, parseNatTok_renderNat]
    show (do
      let x ← lookupState sts.enum (stateIdx sts s)
      let xs ← (rest.map (fun s => renderNat (stateIdx sts s))).mapM
        (fun tok => (match parseNatTok tok with
          | none => none
          | some k => lookupState sts.enum k : Option Int))
      pure (x :: xs)) = some (s :: rest)
    rw [show lookupState sts.enum (stateIdx sts s) = some s from
      lookupState_idx (h s (List.mem_cons_self _ _)),
      ih (fun x hx => h x (List.mem_cons_of_mem _ hx))]
    rfl

theorem splitOn_obsTokens {sts : List Int} {obs : List Int} (hne : obs ≠ []) :
    (sepJoin ',' (obs.map (fun s => renderNat (stateIdx sts s)))).splitOn ',' =
      obs.map (fun s => renderNat (stateIdx sts s)) := by
  refine splitOn_sepJoin ?_ (by simpa using hne)
  intro l hl
  rcases List.mem_map.mp hl with ⟨s, _, rfl⟩
  exact not_mem_renderNat (by decide)

theorem mapM_obsLines {sts : List Int} :
    ∀ (p : List (List Int)), (∀ obs ∈ p, ∀ s ∈ obs, s ∈ sts) →
      (∀ obs ∈ p, obs ≠ []) →
      (p.map (fun obs =>
          sepJoin ',' (obs.map (fun s => renderNat (stateIdx sts s))))).mapM
        (fun obs => (obs.splitOn ',').mapM (fun tok =>
          (match parseNatTok tok with
            | none => none
            | some k => lookupState sts.enum k : Option Int))) = some p := by
  intro p
  induction p with
  | nil =>
    intro _ _
    rfl
  | cons obs rest ih =>
    intro hmem hone
    rw [List.map_cons, List.mapM_cons,
      splitOn_obsTokens (hone obs (List.mem_cons_self _ _)),
      mapM_obsTokens obs (hmem obs (List.mem_cons_self _ _)),
      ih (fun o ho => hmem o (List.mem_cons_of_mem _ ho))
        (fun o ho => hone o (List.mem_cons_of_mem _ ho))]
    rfl

theorem parseObsLine_render {sts : List Int} {p : List (List Int)}
    (hmem : ∀ obs ∈ p, ∀ s ∈ obs, s ∈ sts)
    (hone : ∀ obs ∈ p, obs ≠ []) (hpne : p ≠ []) :
    parseObsLine sts.enum (obsLine sts p) = some p := by
  have hno : ∀ l ∈ p.map (fun obs =>
      sepJoin ',' (obs.map (fun s => renderNat (stateIdx sts s)))),
      '|' ∉ l := by
    intro l hl
    rcases List.mem_map.mp hl with ⟨obs, _, rfl⟩
    intro hpipe
    rcases mem_sepJoin hpipe with h | ⟨l2, hl2, hc2⟩
    · exact absurd h (by decide)
    · rcases List.mem_map.mp hl2 with ⟨s, _, rfl⟩
      exact not_mem_renderNat (by decide) hc2
  unfold parseObsLine obsLine
  rw [splitOn_sepJoin hno (by simpa using hpne)]
  exact mapM_obsLines p hmem hone

theorem mapM_parseObsLine {sts : List Int} (parts : List (List (List Int)))
    (h : ∀ pt ∈ parts, (∀ obs ∈ pt, ∀ s ∈ obs, s ∈ sts) ∧
      (∀ obs ∈ pt, obs ≠ []) ∧ pt ≠ []) :
    (parts.map (obsLine sts)).mapM (parseObsLine sts.enum) = some parts := by
  induction parts with
  | nil => rfl
  | cons pt pts ih =>
    obtain ⟨h1, h2, h3⟩ := h pt (List.mem_cons_self _ _)
    rw [List.map_cons, List.mapM_cons, parseObsLine_render h1 h2 h3,
      ih (fun x hx => h x (List.mem_cons_of_mem _ hx))]
    rfl

theorem parseTransLine_render {sts : List Int} {alph : List (List Int)}
    {t : Int × List Int × Int} (h1 : t.1 ∈ sts) (h2 : t.2.2 ∈ sts)
    (hok : actionsOk t.2.1 alph = true) (hne : t.2.1 ≠ []) :
    parseTransLine sts.enum alph.flatten (transLine sts alph t) = some t := by
  have hno : ∀ l ∈ [renderNat (stateIdx sts t.1),
      sepJoin ','
        (t.2.1.enum.map (fun p => renderNat (actionIdx alph p.1 p.2))),
      renderNat (stateIdx sts t.2.2)], ' ' ∉ l := by
    intro l hl
    rcases List.mem_cons.mp hl with rfl | hl
    · exact not_mem_renderNat (by decide)
    rcases List.mem_cons.mp hl with rfl | hl
    · intro hsp
      rcases mem_sepJoin hsp with h | ⟨l2, hl2, hc2⟩
      · exact absurd h (by decide)
      · rcases List.mem_map.mp hl2 with ⟨pr, _, rfl⟩
        exact not_mem_renderNat (by decide) hc2
    rcases List.mem_cons.mp hl with rfl | hl
    · exact not_mem_renderNat (by decide)
    · exact absurd hl (List.not_mem_nil _)
  have htok : (sepJoin ','
      (t.2.1.enum.map (fun p => renderNat (actionIdx alph p.1 p.2)))).splitOn
        ',' = t.2.1.enum.map (fun p => renderNat (actionIdx alph p.1 p.2)) := by
    refine splitOn_sepJoin ?_ ?_
    · intro l hl
      rcases List.mem_map.mp hl with ⟨pr, _, rfl⟩
      exact not_mem_renderNat (by decide)
    · simpa [List.enum] using
        (by cases h : t.2.1 with
          | nil => exact absurd h hne
          | cons a rest => simp [h] : t.2.1.enum ≠ [])
  unfold parseTransLine transLine
  rw [splitOn_sepJoin hno (by simp)]
  show (match parseNatTok (renderNat (stateIdx sts t.1)),
      parseNatTok (renderNat (stateIdx sts t.2.2)) with
    | some kf, some kt =>
      match lookupState sts.enum kf, lookupState sts.enum kt with
      | some sf, some st2 =>
        (((sepJoin ','
            (t.2.1.enum.map (fun p : Nat × Int =>
              renderNat (actionIdx alph p.1 p.2)))).splitOn ',').mapM
          (fun tok => match parseNatTok tok with
            | none => none
            | some k => alph.flatten.get? k)).map (fun la => (sf, la, st2))
      | _, _ => none
    | _, _ => none) = some t
  rw [parseNatTok_renderNat, parseNatTok_renderNat]
  show (match lookupState sts.enum (stateIdx sts t.1),
      lookupState sts.enum (stateIdx sts t.2.2) with
    | some sf, some st2 =>
      (((sepJoin ','
          (t.2.1.enum.map (fun p : Nat × Int =>
            renderNat (actionIdx alph p.1 p.2)))).splitOn ',').mapM
        (fun tok => match parseNatTok tok with
          | none => none
          | some k => alph.flatten.get? k)).map (fun la => (sf, la, st2))
    | _, _ => none) = some t
  simp only [stateIdx]
  rw [lookupState_idx h1, lookupState_idx h2]
  show ((((sepJoin ','
      (t.2.1.enum.map (fun p : Nat × Int =>
        renderNat (actionIdx alph p.1 p.2)))).splitOn ',').mapM
    (fun tok => match parseNatTok tok with
      | none => none
      | some k => alph.flatten.get? k)).map
        (fun la => (t.1, la, t.2.2))) = some t
  rw [htok]
  rw [mapM_actTokens t.2.1.enum (fun pr hpr =>
    actionsOk_get t.2.1 alph hok pr.1 pr.2 (get_of_mem_enum hpr))]
  show some (t.1, t.2.1.enum.map Prod.snd, t.2.2) = some t
  rw [List.enum_map_snd]

theorem mapM_parseTransLine {sts : List Int} {alph : List (List Int)}
    (ts : List (Int × List Int × Int))
    (h : ∀ t ∈ ts, t.1 ∈ sts ∧ t.2.2 ∈ sts ∧
      actionsOk t.2.1 alph = true ∧ t.2.1 ≠ []) :
    (ts.map (transLine sts alph)).mapM
      (parseTransLine sts.enum alph.flatten) = some ts := by
  induction ts with
  | nil => rfl
  | cons t ts2 ih =>
    obtain ⟨ht1, ht2, ht3, ht4⟩ := h t (List.mem_cons_self _ _)
    rw [List.map_cons, List.mapM_cons, parseTransLine_render ht1 ht2 ht3 ht4,
      ih (fun x hx => h x (List.mem_cons_of_mem _ hx))]
    rfl

theorem renderInt_ne_nil {v : Int} : renderInt v ≠ [] := by
  unfold renderInt
  split
  · simp
  · exact renderNat_ne_nil

theorem sepJoin_ne_nil {sep : Char} {ls : List (List Char)} (h1 : ls ≠ [])
    (h2 : ∀ l ∈ ls, l ≠ []) : sepJoin sep ls ≠ [] := by
  cases ls with
  | nil => exact absurd rfl h1
  | cons l rest =>
    cases rest with
    | nil => exact h2 l (List.mem_cons_self _ _)
    | cons l2 r2 =>
      rw [sepJoin]
      intro hx
      exact List.noConfusion (List.append_eq_nil.mp hx).2

theorem alphaLine_ne_nil {pl : List Int} (h : pl ≠ []) : alphaLine pl ≠ [] := by
  refine sepJoin_ne_nil (by simpa using h) ?_
  intro l hl
  rcases List.mem_map.mp hl with ⟨a, _, rfl⟩
  exact renderInt_ne_nil

theorem obsLine_ne_nil {sts : List Int} {pt : List (List Int)}
    (h1 : pt ≠ []) (h2 : ∀ o ∈ pt, o ≠ []) : obsLine sts pt ≠ [] := by
  refine sepJoin_ne_nil (by simpa using h1) ?_
  intro l hl
  rcases List.mem_map.mp hl with ⟨o, ho, rfl⟩
  refine sepJoin_ne_nil (by simpa using h2 o ho) ?_
  intro l2 hl2
  rcases List.mem_map.mp hl2 with ⟨s, _, rfl⟩
  exact renderNat_ne_nil

theorem transLine_ne_nil {sts : List Int} {alph : List (List Int)}
    {t : Int × List Int × Int} (h : t.2.1 ≠ []) : transLine sts alph t ≠ [] := by
  refine sepJoin_ne_nil (by simp) ?_
  intro l hl
  rcases List.mem_cons.mp hl with rfl | hl
  · exact renderNat_ne_nil
  rcases List.mem_cons.mp hl with rfl | hl
  · refine sepJoin_ne_nil ?_ ?_
    · have he : t.2.1.enum ≠ [] := by
        cases hc : t.2.1 with
        | nil => exact absurd hc h
        | cons a r => simp [hc]
      simpa using he
    · intro l2 hl2
      rcases List.mem_map.mp hl2 with ⟨pr, _, rfl⟩
      exact renderNat_ne_nil
  rcases List.mem_cons.mp hl with rfl | hl
  · exact renderNat_ne_nil
  · exact absurd hl (List.not_mem_nil _)

theorem newline_not_mem_renderInt {v : Int} : '\n' ∉ renderInt v := by
  unfold renderInt
  split
  · intro h
    rcases List.mem_cons.mp h with h | h
    · exact absurd h (by decide)
    · exact not_mem_renderNat (by decide) h
  · exact not_mem_renderNat (by decide)

theorem serializeLines_eq (G : Game Int Int) :
    serializeLines G =
      "Alphabet:".toList :: (G.alphabet.map alphaLine ++
        [] :: ("Base States:".toList ::
          (G.states.enum.map
              (fun p => renderNat p.1 ++ '=' :: renderInt p.2) ++
            [] :: ("Knowledge States:".toList :: [] ::
              ("Initial State: ".toList ++
                  renderNat (stateIdx G.states G.initial)) :: [] ::
                ("Observations:".toList ::
                  (G.partitionings.map (obsLine G.states) ++
                    [] :: ("Transitions:".toList ::
                      (G.transitions.map (transLine G.states G.alphabet) ++
                        [] :: ["Attributes: ".toList ++
                          "\x7b\x7d".toList])))))))) := by
  simp [serializeLines, List.append_assoc]

theorem newline_not_mem_serializeLines {G : Game Int Int} :
    ∀ l ∈ serializeLines G, '\n' ∉ l := by
  intro l hl
  rw [serializeLines_eq] at hl
  rcases List.mem_cons.mp hl with rfl | hl
  · decide
  rcases List.mem_append.mp hl with hl | hl
  · rcases List.mem_map.mp hl with ⟨pl, _, rfl⟩
    intro hc
    rcases mem_sepJoin hc with h | ⟨l2, hl2, hc2⟩
    · exact absurd h (by decide)
    · rcases List.mem_map.mp hl2 with ⟨a, _, rfl⟩
      exact newline_not_mem_renderInt hc2
  rcases List.mem_cons.mp hl with rfl | hl
  · exact List.not_mem_nil _
  rcases List.mem_cons.mp hl with rfl | hl
  · decide
  rcases List.mem_append.mp hl with hl | hl
  · rcases List.mem_map.mp hl with ⟨p, _, rfl⟩
    intro hc
    rcases List.mem_append.mp hc with hc | hc
    · exact not_mem_renderNat (by decide) hc
    · rcases List.mem_cons.mp hc with h | hc
      · exact absurd h (by decide)
      · exact newline_not_mem_renderInt hc
  rcases List.mem_cons.mp hl with rfl | hl
  · exact List.not_mem_nil _
  rcases List.mem_cons.mp hl with rfl | hl
  · decide
  rcases List.mem_cons.mp hl with rfl | hl
  · exact List.not_mem_nil _
  rcases List.mem_cons.mp hl with rfl | hl
  · intro hc
    rcases List.mem_append.mp hc with hc | hc
    · revert hc
      decide
    · exact not_mem_renderNat (by decide) hc
  rcases List.mem_cons.mp hl with rfl | hl
  · exact List.not_mem_nil _
  rcases List.mem_cons.mp hl with rfl | hl
  · decide
  rcases List.mem_append.mp hl with hl | hl
  · rcases List.mem_map.mp hl with ⟨pt, _, rfl⟩
    intro hc
    rcases mem_sepJoin hc with h | ⟨l2, hl2, hc2⟩
    · exact absurd h (by decide)
    · rcases List.mem_map.mp hl2 with ⟨o, _, rfl⟩
      rcases mem_sepJoin hc2 with h | ⟨l3, hl3, hc3⟩
      · exact absurd h (by decide)
      · rcases List.mem_map.mp hl3 with ⟨s, _, rfl⟩
        exact not_mem_renderNat (by decide) hc3
  rcases List.mem_cons.mp hl with rfl | hl
  · exact List.not_mem_nil _
  rcases List.mem_cons.mp hl with rfl | hl
  · decide
  rcases List.mem_append.mp hl with hl | hl
  · rcases List.mem_map.mp hl with ⟨t, _, rfl⟩
    intro hc
    rcases mem_sepJoin hc with h | ⟨l2, hl2, hc2⟩
    · exact absurd h (by decide)
    · rcases List.mem_cons.mp hl2 with rfl | hl2
      · exact not_mem_renderNat (by decide) hc2
      rcases List.mem_cons.mp hl2 with rfl | hl2
      · rcases mem_sepJoin hc2 with h | ⟨l3, hl3, hc3⟩
        · exact absurd h (by decide)
        · rcases List.mem_map.mp hl3 with ⟨pr, _, rfl⟩
          exact not_mem_renderNat (by decide) hc3
      rcases List.mem_cons.mp hl2 with rfl | hl2
      · exact not_mem_renderNat (by decide) hc2
      · exact absurd hl2 (List.not_mem_nil _)
  rcases List.mem_cons.mp hl with rfl | hl
  · exact List.not_mem_nil _
  rcases List.mem_cons.mp hl with rfl | hl
  · decide
  · exact absurd hl (List.not_mem_nil _)

theorem afterColonSpace_initLine {l : List Char} :
    afterColonSpace ("Initial State: ".toList ++ l) = some l := rfl

theorem takeSection_nil_cons :
    ∀ rest : List (List Char), takeSection ([] :: rest) = some ([], rest) := by
  intro rest
  rw [takeSection, if_pos rfl]

theorem mkValidatedGame_conds {sts : List S} {init : S} {alph : List (List A)}
    {ts : List (S × List A × S)} {parts : List (List (List S))}
    {G2 : Game S A}
    (h : mkValidatedGame sts init alph ts parts = some G2) :
    parts.length = alph.length ∧
    (∀ pt ∈ parts, partitioningValid pt sts = true) ∧
    (∀ t ∈ ts, t.1 ∈ sts ∧ t.2.2 ∈ sts ∧ actionsOk t.2.1 alph = true) := by
  unfold mkValidatedGame at h
  split at h
  · next hc =>
    refine ⟨hc.1, ?_, ?_⟩
    · intro pt hpt
      have := List.all_eq_true.mp hc.2.1 pt hpt
      simpa using this
    · intro t ht
      have := List.all_eq_true.mp hc.2.2 t ht
      simp only [Bool.and_eq_true, decide_eq_true_eq] at this
      exact ⟨this.1.1, this.1.2, this.2⟩
  · exact absurd h (by simp)

theorem isoWithObs_refl (G : Game S A) : IsoWithObs G G :=
  ⟨id, fun s hs => hs, fun _ _ _ _ h => h, fun t ht => ⟨t, ht, rfl⟩, rfl,
    fun _ _ _ => Iff.rfl, fun _ _ _ _ _ => Iff.rfl⟩

theorem roundtrip_eq (G : Game Int Int)
    (hvalid : mkValidatedGame G.states G.initial G.alphabet G.transitions
      G.partitionings = some G)
    (halph : mkAlphabet G.alphabet = some G.alphabet)
    (hinit : G.initial ∈ G.states)
    (hstnn : ∀ s ∈ G.states, (0 : Int) ≤ s)
    (hann : ∀ pl ∈ G.alphabet, (∀ a ∈ pl, (0 : Int) ≤ a) ∧ pl ≠ [])
    (hobs : ∀ pt ∈ G.partitionings, pt ≠ [] ∧ ∀ o ∈ pt, o ≠ [])
    (hta : ∀ t ∈ G.transitions, t.2.1 ≠ []) :
    fromStringChars (toStringChars G) = some G := by
  obtain ⟨hlen, hpv, hts⟩ := mkValidatedGame_conds hvalid
  have hmemobs : ∀ pt ∈ G.partitionings, ∀ o ∈ pt, ∀ s ∈ o, s ∈ G.states := by
    intro pt hpt o ho s hs
    have hv := (partitioningValid_iff).mp (hpv pt hpt)
    have h1 : s ∈ pt.flatten := List.mem_flatten.mpr ⟨o, ho, hs⟩
    have h2 : s ∈ pt.flatten.toFinset := List.mem_toFinset.mpr h1
    rw [hv.2] at h2
    exact List.mem_toFinset.mp h2
  have hA : ∀ l ∈ G.alphabet.map alphaLine, l ≠ [] := by
    intro l hl
    rcases List.mem_map.mp hl with ⟨pl, hpl, rfl⟩
    exact alphaLine_ne_nil (hann pl hpl).2
  have hB : ∀ l ∈ G.states.enum.map
      (fun p => renderNat p.1 ++ '=' :: renderInt p.2), l ≠ [] := by
    intro l hl
    rcases List.mem_map.mp hl with ⟨p, _, rfl⟩
    intro hx
    exact List.noConfusion (List.append_eq_nil.mp hx).2
  have hO : ∀ l ∈ G.partitionings.map (obsLine G.states), l ≠ [] := by
    intro l hl
    rcases List.mem_map.mp hl with ⟨pt, hpt, rfl⟩
    exact obsLine_ne_nil (hobs pt hpt).1 (hobs pt hpt).2
  have hT : ∀ l ∈ G.transitions.map (transLine G.states G.alphabet),
      l ≠ [] := by
    intro l hl
    rcases List.mem_map.mp hl with ⟨t, ht, rfl⟩
    exact transLine_ne_nil (hta t ht)
  have eScan : (G.alphabet.map alphaLine).mapM
      (fun l => scanActions l.length l) = some G.alphabet :=
    mapM_scanActions G.alphabet (fun pl hpl => (hann pl hpl).1)
  have eBase : (G.states.enum.map
      (fun p => renderNat p.1 ++ '=' :: renderInt p.2)).mapM
        parseBaseLine = some G.states.enum :=
    mapM_parseBaseLine _ (fun p hp =>
      hstnn p.2 (List.get?_mem (get_of_mem_enum hp)))
  have eInitLook : lookupState G.states.enum (stateIdx G.states G.initial) =
      some G.initial := lookupState_idx hinit
  have eObs : (G.partitionings.map (obsLine G.states)).mapM
      (parseObsLine G.states.enum) = some G.partitionings :=
    mapM_parseObsLine _ (fun pt hpt =>
      ⟨hmemobs pt hpt, (hobs pt hpt).2, (hobs pt hpt).1⟩)
  have eTrans : (G.transitions.map (transLine G.states G.alphabet)).mapM
      (parseTransLine G.states.enum G.alphabet.flatten) =
        some G.transitions :=
    mapM_parseTransLine _ (fun t ht =>
      ⟨(hts t ht).1, (hts t ht).2.1, (hts t ht).2.2, hta t ht⟩)
  have eSnd : G.states.enum.map (fun p => p.2) = G.states :=
    List.enum_map_snd _
  have hne0 : serializeLines G ≠ [] := by
    rw [serializeLines_eq]
    simp
  unfold fromStringChars toStringChars
  rw [splitOn_sepJoin newline_not_mem_serializeLines hne0, serializeLines_eq]
  simp only [parseLines, takeSection_spec hA, takeSection_spec hB,
    takeSection_spec hO, takeSection_spec hT, takeSection_nil_cons,
    eScan, eBase, afterColonSpace_initLine, parseNatTok_renderNat,
    eInitLook, eObs, eTrans, halph, eSnd, eq_self_iff_true, if_true,
    hvalid]

/-- Witness for claim C6 at the projected wagon game with fuel 8. -/
theorem kbsc1_correct_witness :
    wagonP0.alphabet = [[0, 1]] ∧ wagonP0.partitionings = [[[0, 1], [2]]] ∧
    (kbsc1 wagonP0 8).queue = [] ∧
    (∀ t ∈ wagonP0.transitions, t.1 ∈ wagonP0.states ∧ t.2.2 ∈ wagonP0.states) ∧
    wagonP0.initial ∈ wagonP0.states ∧
    ((kbsc1Game wagonP0 8).initial = {wagonP0.initial} ∧
     (∀ q ∈ (kbsc1 wagonP0 8).statesL,
       q.Nonempty ∧ ∀ s ∈ q, s ∈ wagonP0.states) ∧
     (∀ (q k : Finset Nat) (a : Nat),
       ((q, [a], k) ∈ (kbsc1 wagonP0 8).trans ↔
         q ∈ (kbsc1 wagonP0 8).statesL ∧ a ∈ [0, 1] ∧
         ∃ o ∈ [[0, 1], [2]], k = wagonP0.post [a] q ∩ o.toFinset ∧ k ≠ ∅)) ∧
     (kbsc1Game wagonP0 8).partitionings =
       [(kbsc1 wagonP0 8).statesL.map (fun k => [k])]) :=
  ⟨rfl, rfl, by decide, by decide, by decide,
   kbsc1_correct wagonP0 [0, 1] [[0, 1], [2]] 8 rfl rfl (by decide) (by decide)
     (by decide)⟩

/-- Claim C4, counterexample to the unrestricted statement: `negGame`
passes every construction-time validation — `mkValidatedGame` accepts it
and its alphabet passes the `Alphabet` duplicate check — yet
`from_string(to_string(negGame))` fails: `_serialize` renders the action
`-1` with a leading `-`, and `_parse`'s character scan accepts only
digits and quotes, so the action token raises `TypeError`. -/
theorem serialization_roundtrip_fails_on_negGame :
    (mkValidatedGame negGame.states negGame.initial negGame.alphabet
      negGame.transitions negGame.partitionings = some negGame) ∧
    mkAlphabet negGame.alphabet = some negGame.alphabet ∧
    negGame.initial ∈ negGame.states ∧
    fromStringChars (toStringChars negGame) = none := by decide

/-- Claim C4 (amended): for a validated base game over integers whose
states and actions are nonnegative — with the initial state in the state
set, the alphabet accepted by the `Alphabet` duplicate check, nonempty
per-player alphabets, nonempty partitionings with nonempty observations,
and nonempty joint actions — `from_string(to_string(G))` succeeds and
yields a game isomorphic to `G` with observations considered and with
the same tuple of per-player action alphabets (indeed it yields `G`
itself).  The original claim over every valid game fails on rendered
negative integers (see the counterexample). -/
theorem serialization_roundtrip (G : Game Int Int)
    (hvalid : mkValidatedGame G.states G.initial G.alphabet G.transitions
      G.partitionings = some G)
    (halph : mkAlphabet G.alphabet = some G.alphabet)
    (hinit : G.initial ∈ G.states)
    (hstnn : ∀ s ∈ G.states, (0 : Int) ≤ s)
    (hann : ∀ pl ∈ G.alphabet, (∀ a ∈ pl, (0 : Int) ≤ a) ∧ pl ≠ [])
    (hobs : ∀ pt ∈ G.partitionings, pt ≠ [] ∧ ∀ o ∈ pt, o ≠ [])
    (hta : ∀ t ∈ G.transitions, t.2.1 ≠ []) :
    ∃ H, fromStringChars (toStringChars G) = some H ∧
      H.alphabet = G.alphabet ∧ IsoWithObs H G :=
  ⟨G, roundtrip_eq G hvalid halph hinit hstnn hann hobs hta, rfl,
    isoWithObs_refl G⟩

/-- Witness for claim C4 at the two-player game `tinyGame`. -/
theorem serialization_roundtrip_witness :
    ((mkValidatedGame tinyGame.states tinyGame.initial tinyGame.alphabet
        tinyGame.transitions tinyGame.partitionings = some tinyGame) ∧
      mkAlphabet tinyGame.alphabet = some tinyGame.alphabet ∧
      tinyGame.initial ∈ tinyGame.states ∧
      (∀ s ∈ tinyGame.states, (0 : Int) ≤ s) ∧
      (∀ pl ∈ tinyGame.alphabet, (∀ a ∈ pl, (0 : Int) ≤ a) ∧ pl ≠ []) ∧
      (∀ pt ∈ tinyGame.partitionings, pt ≠ [] ∧ ∀ o ∈ pt, o ≠ []) ∧
      (∀ t ∈ tinyGame.transitions, t.2.1 ≠ [])) ∧
    ∃ H, fromStringChars (toStringChars tinyGame) = some H ∧
      H.alphabet = tinyGame.alphabet ∧ IsoWithObs H tinyGame :=
  ⟨⟨by decide, by decide, by decide, by decide, by decide, by decide,
      by decide⟩,
    serialization_roundtrip tinyGame (by decide) (by decide) (by decide)
      (by decide) (by decide) (by decide) (by decide)⟩

end Mkbsc
